import Mathlib

/-! Archive job subsystem of HypermediaSystems.

A shallow embedding of `src/archiver/achiver.go` (the `Archiver` job, its
worker `doArchive` and the per-user table `userArchivers`).

Modelling conventions:

* `Status` is a Go `string` type, so it is a Lean `String`; the three named
  constants are the only values the code ever writes.
* `Progress` is a `float64` that only ever receives `0` and
  `float64(i) / 100` for `0 ≤ i ≤ 100`.  It is modelled as the exact rational
  `i / 100`.  The float division is correctly rounded, hence monotone in `i`,
  exact at `i = 0` and `i = 100`, and stays inside `[0, 1]`, so order and
  bounds statements carry over.
* `go a.doArchive()` adds a worker to the list of scheduled goroutines.  A
  worker is represented by the number of field writes it has already done;
  one scheduler step performs its next write.
* Pointers into the Go heap are indices into a list of archivers.
* From `src/main.go`: the global `myArchiver` with the three archive handlers,
  and `get_contact_list`.  A Go `int` is taken as 64 bits wide and its
  arithmetic wraps; a run-time panic is the result `none`.
* A `Run()` call split into its read and its write is `runStep`; two such
  calls interleaved are `TwoRuns`.
* Nothing in the package is locked.  `Sys` interleaves the individual steps
  of any number of `Run()` calls (read of `Status`; store of `Status` with the
  `go` statement), of `Reset()` calls (three stores) and of the workers (one
  store each).  `Job.step`, where a call is one step, is the special case of
  calls that follow one another (`exec_atomicActs`).
-/

namespace Hypermedia

/-! ## Data model -/

/-- Go: `type Status string`. -/
abbrev Status := String

/-- Go: `StatusWaiting Status = "Waiting"`. -/
def StatusWaiting : Status := "Waiting"

/-- Go: `StatusRunning Status = "Running"`. -/
def StatusRunning : Status := "Running"

/-- Go: `StatusComplete Status = "Complete"`. -/
def StatusComplete : Status := "Complete"

/-- Go: `type Archiver struct { Status; Progress float64; FilePath string }`. -/
structure Archiver where
  Status : Status
  Progress : ℚ
  FilePath : String
  deriving DecidableEq, Repr

/-- The value built by `&Archiver{Status: StatusWaiting}`: the other two fields
take their zero values. -/
def Archiver.fresh : Archiver :=
  { Status := StatusWaiting, Progress := 0, FilePath := "" }

/-- The constant path written by `doArchive`. -/
def archivePath : String := "/path/to/archive.zip"

/-! ## Methods of `Archiver` -/

/-- Go: `func (a *Archiver) Run()`.  Returns the archiver after the call and
the list of goroutines started by the call (each given as the number of
writes it has done so far, that is `0`). -/
def Run (a : Archiver) : Archiver × List Nat :=
  if a.Status ≠ StatusWaiting then
    (a, [])
  else
    ({ a with Status := StatusRunning }, [0])

/-- Go: `func (a *Archiver) Reset()`. -/
def Reset (a : Archiver) : Archiver :=
  let a1 := { a with Status := StatusWaiting }
  let a2 := { a1 with Progress := 0 }
  { a2 with FilePath := "" }

/-- Go: `func (a *Archiver) ArchiveFile() string`.  Returns the string and the
archiver as the call leaves it. -/
def ArchiveFile (a : Archiver) : String × Archiver :=
  if a.Status ≠ StatusComplete then
    ("", a)
  else
    (a.FilePath, a)

/-- One field write of `doArchive`, for a worker that has already done `pc`
writes: writes `0 .. 100` are `a.Progress = float64(i) / 100` for `i = pc`,
write `101` is `a.Status = StatusComplete`, write `102` is
`a.FilePath = "/path/to/archive.zip"`; after that the goroutine has returned. -/
def doArchiveStep (pc : Nat) (a : Archiver) : Archiver :=
  if pc ≤ 100 then
    { a with Progress := (pc : ℚ) / 100 }
  else if pc = 101 then
    { a with Status := StatusComplete }
  else if pc = 102 then
    { a with FilePath := archivePath }
  else
    a

/-- Number of field writes of one `doArchive` call. -/
def workerLen : Nat := 103

/-- Go: `func (a *Archiver) doArchive()` run without interruption: its 103
writes in program order. -/
def doArchive (a : Archiver) : Archiver :=
  (List.range workerLen).foldl (fun acc pc => doArchiveStep pc acc) a

/-! ## One job together with its goroutines -/

/-- A job and the goroutines that `Run` has started on it; each goroutine is
the count of writes it has performed. -/
structure Job where
  a : Archiver
  workers : List Nat
  deriving DecidableEq, Repr

/-- A fresh job with no goroutine. -/
def Job.fresh : Job := { a := Archiver.fresh, workers := [] }

/-- The steps of the interleaving semantics: a `Run()` call, a `Reset()` call,
or the next field write of the `k`-th scheduled goroutine. -/
inductive Event where
  | run : Event
  | reset : Event
  | work : Nat → Event
  deriving DecidableEq, Repr

/-- A goroutine is in flight until it has written `Status` and `FilePath`. -/
def inFlight (pc : Nat) : Bool := decide (pc < workerLen)

/-- Number of goroutines in flight. -/
def Job.inFlightCount (s : Job) : Nat := (s.workers.filter inFlight).length

/-- One step of the semantics in which calls follow one another: a whole
`Run()` call, a whole `Reset()` call, or one write of a goroutine.  The steps
inside a call are interleaved in `Sys.step` below. -/
def Job.step (s : Job) : Event → Job
  | Event.run =>
      { a := (Run s.a).1, workers := s.workers ++ (Run s.a).2 }
  | Event.reset =>
      { s with a := Reset s.a }
  | Event.work k =>
      match s.workers.get? k with
      | some pc =>
          if pc < workerLen then
            { a := doArchiveStep pc s.a, workers := s.workers.set k (pc + 1) }
          else s
      | none => s

/-- Run a schedule from a state. -/
def Job.exec (s : Job) (evs : List Event) : Job := evs.foldl Job.step s

/-- The schedule never calls `Reset()` while a goroutine is in flight. -/
def quietResets : Job → List Event → Bool
  | _, [] => true
  | s, e :: evs =>
      (if e = Event.reset then decide (s.inFlightCount = 0) else true)
        && quietResets (s.step e) evs

/-- Every goroutine of the list has returned. -/
def AllDone (ws : List Nat) : Prop := ∀ x ∈ ws, workerLen ≤ x

/-- The schedule of one undisturbed run: `Run()` and then the first `n` writes
of the goroutine it started. -/
def soloRun (n : Nat) : List Event := Event.run :: List.replicate n (Event.work 0)

/-! ## The per-user table -/

/-- The Go heap cells holding archivers, and the package-level map
`userArchivers : map[string]*Archiver`; a pointer is an index into `heap`. -/
structure Registry where
  heap : List Archiver
  userArchivers : String → Option Nat

/-- Go: `var userArchivers = make(map[string]*Archiver)` on an empty heap. -/
def Registry.empty : Registry := { heap := [], userArchivers := fun _ => none }

/-- Go: `func GetArchiverForUser(userID string) *Archiver`.  Returns the
pointer and the registry after the call. -/
def GetArchiverForUser (userID : String) (r : Registry) : Nat × Registry :=
  match r.userArchivers userID with
  | some a => (a, r)
  | none =>
      let newArchiver := r.heap.length
      (newArchiver,
        { heap := r.heap ++ [Archiver.fresh],
          userArchivers := fun k => if k = userID then some newArchiver else r.userArchivers k })

/-- Dereference a pointer. -/
def Registry.deref (r : Registry) (p : Nat) : Option Archiver := r.heap.get? p

/-- Every pointer stored in the table points into the heap. -/
def Registry.wf (r : Registry) : Prop :=
  ∀ k p, r.userArchivers k = some p → p < r.heap.length

/-- The states a job can be in when `Reset()` is never called while a goroutine
is in flight: either every goroutine has returned and the job is Waiting and
cleared or Complete with its path; or exactly one goroutine, the last one
started, is in flight, and the job shows what that goroutine has written. -/
def Inv (s : Job) : Prop :=
  (AllDone s.workers ∧
      ((s.a.Status = StatusWaiting ∧ s.a.Progress = 0 ∧ s.a.FilePath = "") ∨
        (s.a.Status = StatusComplete ∧ s.a.Progress = 1 ∧ s.a.FilePath = archivePath)))
    ∨ (∃ done p, s.workers = done ++ [p] ∧ AllDone done ∧
        ((p ≤ 101 ∧ s.a.Status = StatusRunning ∧ s.a.Progress = ((p - 1 : Nat) : ℚ) / 100
            ∧ s.a.FilePath = "") ∨
          (p = 102 ∧ s.a.Status = StatusComplete ∧ s.a.Progress = 1 ∧ s.a.FilePath = "")))

/-! ## Operations through the per-user table -/

/-- What can be done to the job behind a pointer: a `Run()` call, a `Reset()`
call, or the `pc`-th field write of a `doArchive` goroutine bound to it. -/
inductive Op where
  | run : Op
  | reset : Op
  | write : Nat → Op
  deriving DecidableEq, Repr

/-- The effect of an operation on the archiver it is applied to. -/
def Op.apply : Op → Archiver → Archiver
  | Op.run, a => (Run a).1
  | Op.reset, a => Reset a
  | Op.write pc, a => doArchiveStep pc a

/-- Apply an operation to the heap cell behind pointer `p`. -/
def Registry.perform (r : Registry) (p : Nat) (op : Op) : Registry :=
  match r.heap.get? p with
  | some a => { r with heap := r.heap.set p (op.apply a) }
  | none => r

/-- The commands that build and use the table: look a user up, or look a user
up and apply an operation to the job returned. -/
inductive Cmd where
  | get : String → Cmd
  | act : String → Op → Cmd
  deriving DecidableEq, Repr

/-- One command. -/
def Registry.cmd (r : Registry) : Cmd → Registry
  | Cmd.get u => (GetArchiverForUser u r).2
  | Cmd.act u op => (GetArchiverForUser u r).2.perform (GetArchiverForUser u r).1 op

/-- The table after a sequence of commands, starting from the empty one. -/
def Registry.run (cmds : List Cmd) : Registry := cmds.foldl Registry.cmd Registry.empty

/-- Well-formed tables: stored pointers are valid and distinct keys have
distinct pointers. -/
def Registry.ok (r : Registry) : Prop :=
  r.wf ∧ ∀ k1 k2 p, r.userArchivers k1 = some p → r.userArchivers k2 = some p → k1 = k2

/-! ## The web layer's use of the archiver (`src/main.go`) -/

/-- The globals of `main.go` that concern the archiver: the package table of
`archiver`, the value `var myArchiver archiver.Archiver` together with the
goroutines started on `&myArchiver`, and the `user_id` drawn in `main`. -/
structure AppState where
  reg : Registry
  myArchiver : Job
  user_id : String

/-- Go: the initialisation in `main`:
`myArchiver = *archiver.GetArchiverForUser(user_id)`.  The dereference copies
the struct value into the global; `none` stands for a nil dereference. -/
def main (user_id : String) : Option AppState :=
  match (GetArchiverForUser user_id Registry.empty).2.deref
      (GetArchiverForUser user_id Registry.empty).1 with
  | some a =>
      some { reg := (GetArchiverForUser user_id Registry.empty).2,
             myArchiver := { a := a, workers := [] },
             user_id := user_id }
  | none => none

/-- Go: `post_archive_handler`: its goroutine calls `myArchiver.Run()`. -/
def post_archive_handler (s : AppState) : AppState :=
  { s with myArchiver := s.myArchiver.step Event.run }

/-- Go: `delete_archive_handler`: calls `myArchiver.Reset()`. -/
def delete_archive_handler (s : AppState) : AppState :=
  { s with myArchiver := s.myArchiver.step Event.reset }

/-- Go: `get_archive_handler`: renders `myArchiver`, changes nothing. -/
def get_archive_handler (s : AppState) : Archiver × AppState :=
  (s.myArchiver.a, s)

/-- What happens to the application state: one of the three archive requests,
or the next write of the `k`-th goroutine started on `&myArchiver`. -/
inductive Request where
  | post_archive : Request
  | get_archive : Request
  | delete_archive : Request
  | work : Nat → Request
  deriving DecidableEq, Repr

/-- One step of the application. -/
def AppState.step (s : AppState) : Request → AppState
  | Request.post_archive => post_archive_handler s
  | Request.get_archive => (get_archive_handler s).2
  | Request.delete_archive => delete_archive_handler s
  | Request.work k => { s with myArchiver := s.myArchiver.step (Event.work k) }

/-- A sequence of steps. -/
def AppState.exec (s : AppState) (rs : List Request) : AppState := rs.foldl AppState.step s

/-- The state of the job that `GetArchiverForUser(user_id)` returns. -/
def AppState.registryJob (s : AppState) : Option Archiver :=
  (GetArchiverForUser s.user_id s.reg).2.deref (GetArchiverForUser s.user_id s.reg).1

/-! ## `Run()` as a read followed by a write -/

/-- One step of a `Run()` call whose guard and body are separate steps.  The
control point is `0` before the read of `Status`, `1` after a read that saw
Waiting, `2` after returning at the guard, `3` after the write of `Status`
and the `go` statement. -/
def runStep (pc : Nat) (s : Job) : Nat × Job :=
  if pc = 0 then
    if s.a.Status ≠ StatusWaiting then (2, s) else (1, s)
  else if pc = 1 then
    (3, { a := { s.a with Status := StatusRunning }, workers := s.workers ++ [0] })
  else
    (pc, s)

/-- Two `Run()` calls in progress on one job. -/
structure TwoRuns where
  job : Job
  pc1 : Nat
  pc2 : Nat
  deriving DecidableEq, Repr

/-- Two calls about to start on a fresh job. -/
def TwoRuns.init : TwoRuns := { job := Job.fresh, pc1 := 0, pc2 := 0 }

/-- The scheduler lets the first call (`true`) or the second call (`false`)
take its next step. -/
def TwoRuns.step (t : TwoRuns) (first : Bool) : TwoRuns :=
  if first then
    { job := (runStep t.pc1 t.job).2, pc1 := (runStep t.pc1 t.job).1, pc2 := t.pc2 }
  else
    { job := (runStep t.pc2 t.job).2, pc1 := t.pc1, pc2 := (runStep t.pc2 t.job).1 }

/-- Run a schedule of the two calls from the start. -/
def TwoRuns.exec (sched : List Bool) : TwoRuns := sched.foldl TwoRuns.step TwoRuns.init

/-- A complete interleaving: each call takes exactly its two steps. -/
def completeSchedule (sched : List Bool) : Bool :=
  decide (sched.count true = 2) && decide (sched.count false = 2)

/-- The calls do not overlap: the call that steps first also takes the second
step of the schedule, so its write precedes the other call's read. -/
def serialSchedule : List Bool → Bool
  | b1 :: b2 :: _ => b1 == b2
  | _ => true

/-! ## Pagination of the contact list (`src/main.go`) -/

/-- Go: `type Contact struct`; the `Errors` map is kept as a list of pairs. -/
structure Contact where
  ID : Int
  First : String
  Last : String
  Email : String
  Phone : String
  Errors : List (String × String)
  deriving DecidableEq, Repr

/-- Largest value of a Go `int` on a 64-bit platform. -/
def maxInt : Int := 2 ^ 63 - 1

/-- Wrap-around of `int` arithmetic (two's complement, 64 bits). -/
def wrapInt (x : Int) : Int := (x + 2 ^ 63) % 2 ^ 64 - 2 ^ 63

/-- The loop of `get_contact_list`:
`for i := p * 10; i < limit && i < len(contacts); i++ { append(..., contacts[i]) }`.
`none` is the run-time panic of an index out of range.  The increment cannot
wrap, because `i < limit` and `limit` is an `int`. -/
def get_contact_list_loop (contacts : List Contact) (limit : Int) (i : Int)
    (contact_set : List Contact) : Option (List Contact) :=
  if i < limit ∧ i < (contacts.length : Int) then
    if 0 ≤ i then
      match contacts.get? i.toNat with
      | some c => get_contact_list_loop contacts limit (i + 1) (contact_set ++ [c])
      | none => none
    else
      none
  else
    some contact_set
termination_by (limit - i).toNat
decreasing_by
  simp_wf
  omega

/-- Go: `func get_contact_list(page int) []Contact` over the global `contacts`. -/
def get_contact_list (contacts : List Contact) (page : Int) : Option (List Contact) :=
  let p := wrapInt (page - 1)
  let limit := wrapInt (wrapInt (p * 10) + 10)
  get_contact_list_loop contacts limit (wrapInt (p * 10)) []

/-- Go: the page number `contact_query_handler` passes on:
`if page <= 0 { page = 1 }`. -/
def contact_query_page (page : Int) : Int :=
  if page ≤ 0 then 1 else page

/-! ## Interleaving inside the calls -/

/-- One store of `Reset()`, for a call that has already done `pc` stores:
`a.Status = StatusWaiting`, then `a.Progress = 0`, then `a.FilePath = ""`. -/
def resetStep (pc : Nat) (a : Archiver) : Archiver :=
  if pc = 0 then
    { a with Status := StatusWaiting }
  else if pc = 1 then
    { a with Progress := 0 }
  else if pc = 2 then
    { a with FilePath := "" }
  else
    a

/-- A job, its workers, and the calls that are under way on it: `runs0` calls
of `Run()` that have not yet read `Status`, `runs1` calls that have read
Waiting and not yet stored, and `resets0`, `resets1`, `resets2` calls of
`Reset()` that have done that many of their three stores. -/
structure Sys where
  job : Job
  runs0 : Nat
  runs1 : Nat
  resets0 : Nat
  resets1 : Nat
  resets2 : Nat
  deriving DecidableEq, Repr

/-- A job with no call under way. -/
def Sys.ofJob (j : Job) : Sys :=
  { job := j, runs0 := 0, runs1 := 0, resets0 := 0, resets1 := 0, resets2 := 0 }

/-- A fresh job, no worker, no call under way. -/
def Sys.init : Sys := Sys.ofJob Job.fresh

/-- The steps of the interleaving: a goroutine enters `Run()`; a `Run()` call
evaluates its guard; a `Run()` call that saw Waiting stores Running and starts
the worker; a caller enters `Reset()`; a `Reset()` call does its first,
second or third store (after the third it returns); the `k`-th worker does
its next store. -/
inductive Act where
  | callRun : Act
  | runRead : Act
  | runWrite : Act
  | callReset : Act
  | resetStatus : Act
  | resetProgress : Act
  | resetFilePath : Act
  | work : Nat → Act
  deriving DecidableEq, Repr

/-- Number of calls under way. -/
def Sys.pending (s : Sys) : Nat :=
  s.runs0 + s.runs1 + s.resets0 + s.resets1 + s.resets2

/-- One step of the interleaving. -/
def Sys.step (s : Sys) : Act → Sys
  | Act.callRun => { s with runs0 := s.runs0 + 1 }
  | Act.runRead =>
      if 0 < s.runs0 then
        { s with job := (runStep 0 s.job).2,
                 runs0 := s.runs0 - 1,
                 runs1 := if (runStep 0 s.job).1 = 1 then s.runs1 + 1 else s.runs1 }
      else s
  | Act.runWrite =>
      if 0 < s.runs1 then
        { s with job := (runStep 1 s.job).2, runs1 := s.runs1 - 1 }
      else s
  | Act.callReset => { s with resets0 := s.resets0 + 1 }
  | Act.resetStatus =>
      if 0 < s.resets0 then
        { s with job := { s.job with a := resetStep 0 s.job.a },
                 resets0 := s.resets0 - 1,
                 resets1 := s.resets1 + 1 }
      else s
  | Act.resetProgress =>
      if 0 < s.resets1 then
        { s with job := { s.job with a := resetStep 1 s.job.a },
                 resets1 := s.resets1 - 1,
                 resets2 := s.resets2 + 1 }
      else s
  | Act.resetFilePath =>
      if 0 < s.resets2 then
        { s with job := { s.job with a := resetStep 2 s.job.a },
                 resets2 := s.resets2 - 1 }
      else s
  | Act.work k => { s with job := s.job.step (Event.work k) }

/-- Run an interleaving from a state. -/
def Sys.exec (s : Sys) (acts : List Act) : Sys := acts.foldl Sys.step s

/-- The steps that belong to `Reset()`. -/
def Act.isReset : Act → Bool
  | Act.callReset => true
  | Act.resetStatus => true
  | Act.resetProgress => true
  | Act.resetFilePath => true
  | _ => false

/-- The calls do not overlap and `Reset()` waits for the worker: `Run()` and
`Reset()` are entered only when no call is under way, and `Reset()` only when
no worker is in flight.  Workers may take their steps at any time. -/
def serialCalls : Sys → List Act → Bool
  | _, [] => true
  | s, e :: es =>
      (match e with
        | Act.callRun => decide (s.pending = 0)
        | Act.callReset => decide (s.pending = 0) && decide (s.job.inFlightCount = 0)
        | _ => true)
        && serialCalls (s.step e) es

/-- The steps that store nothing into the archiver when no worker is in
flight: entering a call, the guard of `Run()`, a step of a returned worker. -/
def Act.storesNothing : Act → Bool
  | Act.callRun => true
  | Act.runRead => true
  | Act.callReset => true
  | Act.work _ => true
  | _ => false

/-- The steps of a call that runs without interruption. -/
def Event.acts : Event → List Act
  | Event.run => [Act.callRun, Act.runRead, Act.runWrite]
  | Event.reset => [Act.callReset, Act.resetStatus, Act.resetProgress, Act.resetFilePath]
  | Event.work k => [Act.work k]

/-- A schedule of whole calls as an interleaving of their steps. -/
def atomicActs : List Event → List Act
  | [] => []
  | e :: es => e.acts ++ atomicActs es

/-- The archiver is cleared. -/
def Cleared (a : Archiver) : Prop :=
  a.Status = StatusWaiting ∧ a.Progress = 0 ∧ a.FilePath = ""

/-- The archiver is as a completed worker leaves it. -/
def Finished (a : Archiver) : Prop :=
  a.Status = StatusComplete ∧ a.Progress = 1 ∧ a.FilePath = archivePath

/-- The states of an interleaving with `serialCalls`: no call under way, or
one `Run()` call before its read, with the job in `Inv`; or one `Run()` call
that saw Waiting, on a cleared job with no worker in flight; or one `Reset()`
call, with no worker in flight, part of the way through its stores. -/
def FInv (s : Sys) : Prop :=
  (s.pending = 0 ∧ Inv s.job)
    ∨ (s.pending = 1 ∧ s.runs0 = 1 ∧ Inv s.job)
    ∨ (s.pending = 1 ∧ s.runs1 = 1 ∧ AllDone s.job.workers ∧ Cleared s.job.a)
    ∨ (s.pending = 1 ∧ s.resets0 = 1 ∧ AllDone s.job.workers
        ∧ (Cleared s.job.a ∨ Finished s.job.a))
    ∨ (s.pending = 1 ∧ s.resets1 = 1 ∧ AllDone s.job.workers
        ∧ s.job.a.Status = StatusWaiting
        ∧ ((s.job.a.Progress = 0 ∧ s.job.a.FilePath = "")
          ∨ (s.job.a.Progress = 1 ∧ s.job.a.FilePath = archivePath)))
    ∨ (s.pending = 1 ∧ s.resets2 = 1 ∧ AllDone s.job.workers
        ∧ s.job.a.Status = StatusWaiting ∧ s.job.a.Progress = 0
        ∧ (s.job.a.FilePath = "" ∨ s.job.a.FilePath = archivePath))

/-! ## Stepping lemmas -/

theorem step_work_allDone (a : Archiver) (ws : List Nat) (k : Nat) (h : AllDone ws) :
    Job.step { a := a, workers := ws } (Event.work k) = { a := a, workers := ws } := by
  cases hk : ws[k]? with
  | none => simp [Job.step, hk]
  | some pc =>
      have hge := h pc (List.getElem?_mem hk)
      have hnot : ¬ pc < workerLen := Nat.not_lt.mpr hge
      simp [Job.step, hk, hnot]

theorem step_work_last (a : Archiver) (done : List Nat) (p : Nat) (hp : p < workerLen) :
    Job.step { a := a, workers := done ++ [p] } (Event.work done.length)
      = { a := doArchiveStep p a, workers := done ++ [p + 1] } := by
  have hget : (done ++ [p])[done.length]? = some p := by simp
  have hset : (done ++ [p]).set done.length (p + 1) = done ++ [p + 1] := by
    rw [List.set_append_right _ _ (Nat.le_refl _)]
    simp
  simp only [Job.step, List.get?_eq_getElem?, hget, hp, if_true, hset]

theorem step_work_other (a : Archiver) (done : List Nat) (p k : Nat) (hd : AllDone done)
    (hk : k ≠ done.length) :
    Job.step { a := a, workers := done ++ [p] } (Event.work k)
      = { a := a, workers := done ++ [p] } := by
  rcases Nat.lt_or_gt_of_ne hk with hlt | hgt
  · cases hg : (done ++ [p])[k]? with
    | none => simp [Job.step, hg]
    | some pc =>
        have hg2 : done[k]? = some pc := by
          rw [List.getElem?_append_left hlt] at hg
          exact hg
        have hge := hd pc (List.getElem?_mem hg2)
        have hnot : ¬ pc < workerLen := Nat.not_lt.mpr hge
        simp [Job.step, hg, hnot]
  · have hnone : (done ++ [p])[k]? = none := by
      rw [List.getElem?_eq_none_iff]
      simp
      omega
    simp [Job.step, hnone]

theorem exec_append (s : Job) (xs ys : List Event) :
    Job.exec s (xs ++ ys) = Job.exec (Job.exec s xs) ys := by
  simp [Job.exec, List.foldl_append]

theorem exec_cons (s : Job) (e : Event) (es : List Event) :
    Job.exec s (e :: es) = Job.exec (s.step e) es := rfl

theorem soloRun_succ (n : Nat) : soloRun (n + 1) = soloRun n ++ [Event.work 0] := by
  simp [soloRun, List.replicate_succ']

/-- After `Run()` on a fresh job and `k ≤ 101` writes of its goroutine the job
is Running, shows the progress of the last write and has no file path. -/
theorem exec_soloRun_progress (k : Nat) (hk : k ≤ 101) :
    Job.exec Job.fresh (soloRun k)
      = { a := { Status := StatusRunning, Progress := ((k - 1 : Nat) : ℚ) / 100, FilePath := "" },
          workers := [k] } := by
  induction k with
  | zero =>
      simp [soloRun, Job.exec, Job.step, Job.fresh, Archiver.fresh, Run, StatusWaiting]
  | succ n ih =>
      rw [soloRun_succ, exec_append, ih (by omega)]
      have h := step_work_last
        { Status := StatusRunning, Progress := ((n - 1 : Nat) : ℚ) / 100, FilePath := "" }
        [] n (by unfold workerLen; omega)
      simp only [List.nil_append, List.length_nil] at h
      simp only [Job.exec, List.foldl_cons, List.foldl_nil, h]
      have hn : n ≤ 100 := by omega
      simp [doArchiveStep, hn]

theorem exec_soloRun_102 :
    Job.exec Job.fresh (soloRun 102)
      = { a := { Status := StatusComplete, Progress := 1, FilePath := "" }, workers := [102] } := by
  rw [soloRun_succ, exec_append, exec_soloRun_progress 101 (Nat.le_refl _)]
  have h := step_work_last
    { Status := StatusRunning, Progress := ((101 - 1 : Nat) : ℚ) / 100, FilePath := "" }
    [] 101 (by decide)
  simp only [List.nil_append, List.length_nil] at h
  simp only [Job.exec, List.foldl_cons, List.foldl_nil, h]
  norm_num [doArchiveStep]

theorem exec_soloRun_103 :
    Job.exec Job.fresh (soloRun 103)
      = { a := { Status := StatusComplete, Progress := 1, FilePath := archivePath },
          workers := [103] } := by
  rw [soloRun_succ, exec_append, exec_soloRun_102]
  have h := step_work_last
    { Status := StatusComplete, Progress := 1, FilePath := "" } [] 102 (by decide)
  simp only [List.nil_append, List.length_nil] at h
  simp only [Job.exec, List.foldl_cons, List.foldl_nil, h]
  norm_num [doArchiveStep]

/-! ## The invariant of schedules with quiet resets -/

theorem inFlightCount_allDone (a : Archiver) (ws : List Nat) (h : AllDone ws) :
    Job.inFlightCount { a := a, workers := ws } = 0 := by
  simp only [Job.inFlightCount, List.length_eq_zero, List.filter_eq_nil_iff]
  intro x hx
  have := h x hx
  simp [inFlight]
  omega

theorem inFlightCount_last (a : Archiver) (done : List Nat) (p : Nat) (h : AllDone done)
    (hp : p < workerLen) :
    Job.inFlightCount { a := a, workers := done ++ [p] } = 1 := by
  have h0 := inFlightCount_allDone a done h
  simp only [Job.inFlightCount] at h0
  simp [Job.inFlightCount, List.filter_append, h0, inFlight, hp]

theorem allDone_snoc (done : List Nat) (p : Nat) (h : AllDone done) (hp : workerLen ≤ p) :
    AllDone (done ++ [p]) := by
  intro x hx
  rcases List.mem_append.mp hx with hx | hx
  · exact h x hx
  · simp at hx
    omega

theorem inv_fresh : Inv Job.fresh := by
  refine Or.inl ⟨?_, Or.inl ⟨rfl, rfl, rfl⟩⟩
  intro x hx
  simp [Job.fresh] at hx

/-- One step keeps the invariant, provided a `Reset()` step is taken only with
no goroutine in flight; and a step other than `Reset()` between two Running
states does not lower Progress. -/
theorem inv_step (s : Job) (e : Event) (hI : Inv s)
    (hg : e = Event.reset → s.inFlightCount = 0) :
    Inv (s.step e)
      ∧ (e ≠ Event.reset → s.a.Status = StatusRunning → (s.step e).a.Status = StatusRunning →
          s.a.Progress ≤ (s.step e).a.Progress) := by
  obtain ⟨a, ws⟩ := s
  obtain ⟨st, pr, fp⟩ := a
  rcases hI with ⟨hd, hst⟩ | ⟨done, p, hws, hd, hst⟩
  · simp only at hd hst
    cases e with
    | run =>
        rcases hst with ⟨h1, h2, h3⟩ | ⟨h1, h2, h3⟩
        · subst h1 h2 h3
          refine ⟨Or.inr ⟨ws, 0, ?_, hd, Or.inl ⟨by omega, ?_, ?_, ?_⟩⟩, ?_⟩ <;>
            simp [Job.step, Run, StatusWaiting, StatusRunning]
        · subst h1 h2 h3
          refine ⟨Or.inl ⟨?_, Or.inr ⟨?_, ?_, ?_⟩⟩, ?_⟩ <;>
            simp [Job.step, Run, StatusWaiting, StatusComplete, StatusRunning, hd]
    | reset =>
        refine ⟨Or.inl ⟨hd, Or.inl ⟨rfl, rfl, rfl⟩⟩, ?_⟩
        intro h
        exact absurd rfl h
    | work k =>
        rw [step_work_allDone _ _ _ hd]
        exact ⟨Or.inl ⟨hd, hst⟩, fun _ _ _ => le_refl _⟩
  · simp only at hws hst
    subst hws
    have hplt : p < workerLen := by
      unfold workerLen
      rcases hst with ⟨h, _⟩ | ⟨h, _⟩ <;> omega
    cases e with
    | run =>
        have hnw : st ≠ StatusWaiting := by
          rcases hst with ⟨_, h, _⟩ | ⟨_, h, _⟩ <;> rw [h] <;> decide
        have hrun : Job.step { a := ⟨st, pr, fp⟩, workers := done ++ [p] } Event.run
            = { a := ⟨st, pr, fp⟩, workers := done ++ [p] } := by
          simp [Job.step, Run, hnw]
        rw [hrun]
        exact ⟨Or.inr ⟨done, p, rfl, hd, hst⟩, fun _ _ _ => le_refl _⟩
    | reset =>
        have h1 := inFlightCount_last ⟨st, pr, fp⟩ done p hd hplt
        have h0 := hg rfl
        omega
    | work k =>
        by_cases hk : k = done.length
        · subst hk
          rw [step_work_last _ _ _ hplt]
          rcases hst with ⟨hp, h1, h2, h3⟩ | ⟨hp, h1, h2, h3⟩
          · subst h1 h2 h3
            by_cases hp100 : p ≤ 100
            · refine ⟨Or.inr ⟨done, p + 1, rfl, hd, Or.inl ⟨by omega, ?_, ?_, ?_⟩⟩, ?_⟩
              · simp [doArchiveStep, hp100]
              · simp [doArchiveStep, hp100]
              · simp [doArchiveStep, hp100]
              · intro _ _ _
                simp only [doArchiveStep, hp100, if_true]
                have hc : ((p - 1 : Nat) : ℚ) ≤ (p : ℚ) := by
                  exact_mod_cast Nat.sub_le p 1
                exact div_le_div_of_nonneg_right hc (by norm_num)
            · have hp101 : p = 101 := by omega
              subst hp101
              refine ⟨Or.inr ⟨done, 102, rfl, hd, Or.inr ⟨rfl, ?_, ?_, ?_⟩⟩, ?_⟩
              · simp [doArchiveStep]
              · norm_num [doArchiveStep]
              · simp [doArchiveStep]
              · intro _ _ h
                simp [doArchiveStep, StatusComplete, StatusRunning] at h
          · subst hp h1 h2 h3
            refine ⟨Or.inl ⟨allDone_snoc done 103 hd (Nat.le_refl _),
              Or.inr ⟨?_, ?_, ?_⟩⟩, ?_⟩
            · simp [doArchiveStep]
            · simp [doArchiveStep]
            · simp [doArchiveStep]
            · intro _ h
              simp [StatusComplete, StatusRunning] at h
        · rw [step_work_other _ _ _ _ hd hk]
          exact ⟨Or.inr ⟨done, p, rfl, hd, hst⟩, fun _ _ _ => le_refl _⟩

theorem quietResets_cons (s : Job) (e : Event) (es : List Event) :
    quietResets s (e :: es)
      = ((if e = Event.reset then decide (s.inFlightCount = 0) else true)
          && quietResets (s.step e) es) := rfl

theorem quietResets_append (xs : List Event) :
    ∀ (s : Job) (ys : List Event),
      quietResets s (xs ++ ys) = (quietResets s xs && quietResets (Job.exec s xs) ys) := by
  induction xs with
  | nil => intro s ys; simp [quietResets, Job.exec]
  | cons e es ih =>
      intro s ys
      rw [List.cons_append, quietResets_cons, quietResets_cons, ih, exec_cons, Bool.and_assoc]

theorem quietResets_of_no_reset (ys : List Event) :
    ∀ (s : Job), Event.reset ∉ ys → quietResets s ys = true := by
  induction ys with
  | nil => intro s _; rfl
  | cons e es ih =>
      intro s h
      have he : e ≠ Event.reset := fun hc => h (by simp [hc])
      have hes : Event.reset ∉ es := fun hc => h (List.mem_cons_of_mem _ hc)
      rw [quietResets_cons, ih _ hes]
      simp [he]

theorem inv_exec (evs : List Event) :
    ∀ (s : Job), Inv s → quietResets s evs = true → Inv (Job.exec s evs) := by
  induction evs with
  | nil => intro s hI _; exact hI
  | cons e es ih =>
      intro s hI hq
      rw [quietResets_cons, Bool.and_eq_true] at hq
      rw [exec_cons]
      refine ih _ (inv_step s e hI ?_).1 hq.2
      intro he
      have h1 := hq.1
      rw [if_pos he] at h1
      exact of_decide_eq_true h1

/-- A step other than `Reset()` leaves Status as it is, or takes it from
Waiting to Running, or makes it Complete. -/
theorem status_step (s : Job) (e : Event) (he : e ≠ Event.reset) :
    (s.step e).a.Status = s.a.Status
      ∨ (s.a.Status = StatusWaiting ∧ (s.step e).a.Status = StatusRunning)
      ∨ (s.step e).a.Status = StatusComplete := by
  cases e with
  | run =>
      by_cases h : s.a.Status = StatusWaiting
      · exact Or.inr (Or.inl ⟨h, by simp [Job.step, Run, h]⟩)
      · exact Or.inl (by simp [Job.step, Run, h])
  | reset => exact absurd rfl he
  | work k =>
      cases hk : s.workers[k]? with
      | none => exact Or.inl (by simp [Job.step, hk])
      | some pc =>
          by_cases hpc : pc < workerLen
          · by_cases h100 : pc ≤ 100
            · exact Or.inl (by simp [Job.step, hk, hpc, doArchiveStep, h100])
            · by_cases h101 : pc = 101
              · subst h101
                exact Or.inr (Or.inr (by simp [Job.step, hk, doArchiveStep, workerLen]))
              · exact Or.inl (by
                  simp only [Job.step, List.get?_eq_getElem?, hk, hpc, if_true, doArchiveStep,
                    h100, h101, if_false]
                  split <;> rfl)
          · exact Or.inl (by simp [Job.step, hk, hpc])

theorem complete_exec (evs : List Event) :
    ∀ (s : Job), Event.reset ∉ evs → s.a.Status = StatusComplete →
      (Job.exec s evs).a.Status = StatusComplete := by
  induction evs with
  | nil => intro s _ h; exact h
  | cons e es ih =>
      intro s hno h
      have he : e ≠ Event.reset := fun hc => hno (by simp [hc])
      have hes : Event.reset ∉ es := fun hc => hno (List.mem_cons_of_mem _ hc)
      rw [exec_cons]
      apply ih _ hes
      rcases status_step s e he with h1 | ⟨h1, _⟩ | h1
      · rw [h1, h]
      · rw [h] at h1
        exact absurd h1 (by decide)
      · exact h1

/-- Along a part of a schedule without `Reset()`, starting in the invariant,
Progress does not decrease from a Running state to a later Running state. -/
theorem mono_exec (mid : List Event) :
    ∀ (s : Job), Inv s → Event.reset ∉ mid → s.a.Status = StatusRunning →
      (Job.exec s mid).a.Status = StatusRunning →
      s.a.Progress ≤ (Job.exec s mid).a.Progress := by
  induction mid with
  | nil => intro s _ _ _ _; exact le_refl _
  | cons e es ih =>
      intro s hI hno h1 h2
      have he : e ≠ Event.reset := fun hc => hno (by simp [hc])
      have hes : Event.reset ∉ es := fun hc => hno (List.mem_cons_of_mem _ hc)
      have hstep := inv_step s e hI (fun hc => absurd hc he)
      rw [exec_cons] at h2 ⊢
      rcases status_step s e he with hs | ⟨hs, _⟩ | hs
      · rw [h1] at hs
        exact le_trans (hstep.2 he h1 hs) (ih _ hstep.1 hes hs h2)
      · rw [h1] at hs
        exact absurd hs (by decide)
      · have hc := complete_exec es _ hes hs
        rw [hc] at h2
        exact absurd h2 (by decide)

theorem doArchiveStep_bounds (pc : Nat) (a : Archiver)
    (h : 0 ≤ a.Progress ∧ a.Progress ≤ 1) :
    0 ≤ (doArchiveStep pc a).Progress ∧ (doArchiveStep pc a).Progress ≤ 1 := by
  unfold doArchiveStep
  by_cases h100 : pc ≤ 100
  · simp only [h100, if_true]
    have hc : (pc : ℚ) ≤ 100 := by exact_mod_cast h100
    have h0 : (0 : ℚ) ≤ (pc : ℚ) := Nat.cast_nonneg pc
    constructor
    · exact div_nonneg h0 (by norm_num)
    · rw [div_le_one (by norm_num)]
      exact hc
  · simp only [h100, if_false]
    split
    · exact h
    · split <;> exact h

theorem bounds_step (s : Job) (e : Event) (h : 0 ≤ s.a.Progress ∧ s.a.Progress ≤ 1) :
    0 ≤ (s.step e).a.Progress ∧ (s.step e).a.Progress ≤ 1 := by
  cases e with
  | run =>
      by_cases hw : s.a.Status = StatusWaiting
      · simpa [Job.step, Run, hw] using h
      · simpa [Job.step, Run, hw] using h
  | reset => simp [Job.step, Reset]
  | work k =>
      cases hk : s.workers[k]? with
      | none => simpa [Job.step, hk] using h
      | some pc =>
          by_cases hpc : pc < workerLen
          · have hb := doArchiveStep_bounds pc s.a h
            simpa [Job.step, hk, hpc] using hb
          · simpa [Job.step, hk, hpc] using h

theorem bounds_exec (evs : List Event) :
    ∀ (s : Job), (0 ≤ s.a.Progress ∧ s.a.Progress ≤ 1) →
      0 ≤ (Job.exec s evs).a.Progress ∧ (Job.exec s evs).a.Progress ≤ 1 := by
  induction evs with
  | nil => intro s h; exact h
  | cons e es ih =>
      intro s h
      rw [exec_cons]
      exact ih _ (bounds_step s e h)

theorem inFlightCount_le_one_of_inv (s : Job) (hI : Inv s) : s.inFlightCount ≤ 1 := by
  obtain ⟨a, ws⟩ := s
  rcases hI with ⟨hd, _⟩ | ⟨done, p, hws, hd, hst⟩
  · rw [inFlightCount_allDone a ws hd]
    exact Nat.zero_le 1
  · simp only at hws
    subst hws
    have hp : p < workerLen := by
      unfold workerLen
      rcases hst with ⟨h, _⟩ | ⟨h, _⟩ <;> omega
    rw [inFlightCount_last a done p hd hp]

theorem run_noop_of_inv_inFlight (s : Job) (hI : Inv s) (hpos : 0 < s.inFlightCount) :
    (Run s.a).2 = [] := by
  obtain ⟨a, ws⟩ := s
  rcases hI with ⟨hd, _⟩ | ⟨done, p, _, _, hst⟩
  · rw [inFlightCount_allDone a ws hd] at hpos
    exact absurd hpos (Nat.lt_irrefl 0)
  · have hnw : a.Status ≠ StatusWaiting := by
      rcases hst with ⟨_, h, _⟩ | ⟨_, h, _⟩ <;> simp only at h <;> rw [h] <;> decide
    simp [Run, hnw]

/-- In the invariant a non-empty FilePath goes with Status Complete and no
goroutine in flight, and conversely. -/
theorem filePath_of_inv (s : Job) (hI : Inv s) :
    s.a.FilePath ≠ "" ↔ (s.a.Status = StatusComplete ∧ s.inFlightCount = 0) := by
  obtain ⟨a, ws⟩ := s
  rcases hI with ⟨hd, hst⟩ | ⟨done, p, hws, hd, hst⟩
  · have h0 := inFlightCount_allDone a ws hd
    rcases hst with ⟨h1, _, h3⟩ | ⟨h1, _, h3⟩
    · simp only at h1 h3
      simp [h1, h3, StatusWaiting, StatusComplete]
    · simp only at h1 h3
      simp [h1, h3, h0, archivePath]
  · simp only at hws
    subst hws
    rcases hst with ⟨_, h1, _, h3⟩ | ⟨hp, h1, _, h3⟩
    · simp only at h1 h3
      simp [h1, h3, StatusRunning, StatusComplete]
    · simp only at h1 h3
      have hc := inFlightCount_last a done p hd (by unfold workerLen; omega)
      simp [h3, hc]

/-! ## Theorems: the methods of `Archiver` -/

/-- C1 (counterexample): an archiver that is Waiting with `Progress = 1/2`
still has `Progress = 1/2`, not `0`, after `Run()`. -/
theorem run_keeps_progress_counterexample :
    ({ Status := StatusWaiting, Progress := 1 / 2, FilePath := "" } : Archiver).Status
        = StatusWaiting
      ∧ (Run { Status := StatusWaiting, Progress := 1 / 2, FilePath := "" }).1.Progress = 1 / 2
      ∧ (Run { Status := StatusWaiting, Progress := 1 / 2, FilePath := "" }).1.Progress ≠ 0 := by
  refine ⟨rfl, ?_, ?_⟩ <;> norm_num [Run, StatusWaiting]

/-- C1 (amended): for every archiver whose Status is Waiting, after `Run()`
the Status is Running, Progress and FilePath are what they were before the
call, and exactly one worker has been scheduled, at its first write. -/
theorem run_from_waiting (a : Archiver) (h : a.Status = StatusWaiting) :
    (Run a).1.Status = StatusRunning
      ∧ (Run a).1.Progress = a.Progress
      ∧ (Run a).1.FilePath = a.FilePath
      ∧ (Run a).2 = [0]
      ∧ (Run a).2.length = 1 := by
  simp [Run, h]

/-- Witness of `run_from_waiting` at a Waiting archiver with stale fields. -/
theorem run_from_waiting_witness :
    (Run { Status := StatusWaiting, Progress := 1 / 2, FilePath := "old" }).1.Status
        = StatusRunning
      ∧ (Run { Status := StatusWaiting, Progress := 1 / 2, FilePath := "old" }).1.Progress = 1 / 2
      ∧ (Run { Status := StatusWaiting, Progress := 1 / 2, FilePath := "old" }).1.FilePath = "old"
      ∧ (Run { Status := StatusWaiting, Progress := 1 / 2, FilePath := "old" }).2 = [0]
      ∧ (Run { Status := StatusWaiting, Progress := 1 / 2, FilePath := "old" }).2.length = 1 :=
  run_from_waiting { Status := StatusWaiting, Progress := 1 / 2, FilePath := "old" } rfl

/-- C2: for every archiver whose Status is not Waiting, `Run()` changes no
field and schedules no worker; and two successive `Run()` calls on a fresh
job schedule exactly one worker. -/
theorem run_noop_when_not_waiting (a : Archiver) (h : a.Status ≠ StatusWaiting) :
    Run a = (a, [])
      ∧ (Run a).1.Status = a.Status
      ∧ (Run a).1.Progress = a.Progress
      ∧ (Run a).1.FilePath = a.FilePath
      ∧ (Run a).2.length = 0
      ∧ (Job.exec Job.fresh [Event.run, Event.run]).workers.length = 1
      ∧ ((Run Archiver.fresh).2 ++ (Run (Run Archiver.fresh).1).2).length = 1 := by
  have hr : Run a = (a, []) := by simp [Run, h]
  refine ⟨hr, by rw [hr], by rw [hr], by rw [hr], by rw [hr]; rfl, ?_, ?_⟩
  · simp [Job.exec, Job.step, Job.fresh, Run, Archiver.fresh, StatusWaiting, StatusRunning]
  · simp [Run, Archiver.fresh, StatusWaiting, StatusRunning]

/-- Witness of `run_noop_when_not_waiting` at a Running archiver. -/
theorem run_noop_when_not_waiting_witness :
    Run { Status := StatusRunning, Progress := 1 / 2, FilePath := "" }
        = ({ Status := StatusRunning, Progress := 1 / 2, FilePath := "" }, [])
      ∧ Run { Status := StatusComplete, Progress := 1, FilePath := archivePath }
        = ({ Status := StatusComplete, Progress := 1, FilePath := archivePath }, []) :=
  ⟨(run_noop_when_not_waiting { Status := StatusRunning, Progress := 1 / 2, FilePath := "" }
      (by decide)).1,
   (run_noop_when_not_waiting { Status := StatusComplete, Progress := 1, FilePath := archivePath }
      (by decide)).1⟩

/-- Run without interruption, `Reset()` leaves the archiver Waiting with
Progress 0 and an empty FilePath, on which `ArchiveFile()` returns the empty
string. -/
theorem reset_uninterrupted (a : Archiver) :
    Reset a = { Status := StatusWaiting, Progress := 0, FilePath := "" }
      ∧ (ArchiveFile (Reset a)).1 = "" := by
  constructor
  · rfl
  · simp [ArchiveFile, Reset, StatusWaiting, StatusComplete]

/-- C4: `ArchiveFile()` returns the stored FilePath when Status is Complete,
the empty string when Status is anything else (in particular Waiting or
Running, whatever FilePath holds), and never modifies the archiver. -/
theorem archiveFile_spec (a : Archiver) :
    (a.Status = StatusComplete → (ArchiveFile a).1 = a.FilePath)
      ∧ (a.Status ≠ StatusComplete → (ArchiveFile a).1 = "")
      ∧ (a.Status = StatusWaiting ∨ a.Status = StatusRunning → (ArchiveFile a).1 = "")
      ∧ (ArchiveFile a).2 = a := by
  refine ⟨fun h => by simp [ArchiveFile, h], fun h => by simp [ArchiveFile, h], ?_, ?_⟩
  · rintro (h | h) <;> simp [ArchiveFile, h, StatusWaiting, StatusRunning, StatusComplete]
  · unfold ArchiveFile; split <;> rfl

/-- Witness of `archiveFile_spec`: a Complete archiver gives its path, a
Running one with a stale non-empty path gives the empty string. -/
theorem archiveFile_spec_witness :
    (ArchiveFile { Status := StatusComplete, Progress := 1, FilePath := archivePath }).1
        = archivePath
      ∧ (ArchiveFile { Status := StatusRunning, Progress := 1 / 2, FilePath := "stale" }).1 = ""
      ∧ (ArchiveFile { Status := StatusWaiting, Progress := 0, FilePath := "stale" }).1 = "" :=
  ⟨(archiveFile_spec { Status := StatusComplete, Progress := 1, FilePath := archivePath }).1 rfl,
   (archiveFile_spec { Status := StatusRunning, Progress := 1 / 2, FilePath := "stale" }).2.1
      (by decide),
   (archiveFile_spec { Status := StatusWaiting, Progress := 0, FilePath := "stale" }).2.2.1
      (Or.inl rfl)⟩

/-! ## Theorems: one undisturbed run -/

/-- The interleaving semantics restricted to a single goroutine agrees with
the sequential `doArchive`: `n` scheduler steps perform its first `n` writes. -/
theorem exec_single_worker (a : Archiver) (n : Nat) (hn : n ≤ workerLen) :
    Job.exec { a := a, workers := [0] } (List.replicate n (Event.work 0))
      = { a := (List.range n).foldl (fun acc pc => doArchiveStep pc acc) a, workers := [n] } := by
  induction n with
  | zero => rfl
  | succ m ih =>
      rw [List.replicate_succ', exec_append, ih (by omega), List.range_succ, List.foldl_append]
      have h := step_work_last ((List.range m).foldl (fun acc pc => doArchiveStep pc acc) a)
        [] m (by omega)
      simp only [List.nil_append, List.length_nil] at h
      simp only [Job.exec, List.foldl_cons, List.foldl_nil, h]

/-- C5: from a fresh job, `Run()` followed by all 103 writes of the worker,
with nothing interleaved, ends Complete with Progress 1 and the fixed file
path, which is also what the sequential `doArchive` computes; `ArchiveFile()`
then returns that path, and after every proper initial part of the run (its
first `k` steps, `k` below the run's length) `ArchiveFile()` returns the empty
string. -/
theorem solo_run_completes (k : Nat) (hk : k < (soloRun workerLen).length) :
    (Job.exec Job.fresh (soloRun workerLen)).a
        = { Status := StatusComplete, Progress := 1, FilePath := "/path/to/archive.zip" }
      ∧ (Job.exec Job.fresh (soloRun workerLen)).inFlightCount = 0
      ∧ doArchive (Run Archiver.fresh).1
        = { Status := StatusComplete, Progress := 1, FilePath := "/path/to/archive.zip" }
      ∧ (ArchiveFile (Job.exec Job.fresh (soloRun workerLen)).a).1 = "/path/to/archive.zip"
      ∧ (ArchiveFile (Job.exec Job.fresh ((soloRun workerLen).take k)).a).1 = "" := by
  have hfull : Job.exec Job.fresh (soloRun workerLen)
      = { a := { Status := StatusComplete, Progress := 1, FilePath := archivePath },
          workers := [103] } := exec_soloRun_103
  have hseq : Job.exec Job.fresh (soloRun workerLen)
      = { a := doArchive (Run Archiver.fresh).1, workers := [workerLen] } := by
    have h0 : Job.step Job.fresh Event.run
        = { a := (Run Archiver.fresh).1, workers := [0] } := by
      simp [Job.step, Job.fresh, Run, Archiver.fresh, StatusWaiting]
    rw [soloRun, exec_cons, h0, exec_single_worker _ _ (Nat.le_refl _)]
    rfl
  refine ⟨by rw [hfull]; rfl, by rw [hfull]; decide, ?_, ?_, ?_⟩
  · have h := hseq
    rw [hfull] at h
    have h2 := congrArg Job.a h
    exact h2.symm
  · rw [hfull]
    simp [ArchiveFile, archivePath]
  · cases k with
    | zero =>
        simp [Job.exec, Job.fresh, Archiver.fresh, ArchiveFile, StatusWaiting, StatusComplete]
    | succ j =>
        have hj : j < 103 := by
          simp [soloRun, workerLen] at hk
          omega
        have htake : (soloRun workerLen).take (j + 1) = soloRun j := by
          simp only [soloRun, List.take_succ_cons, List.take_replicate, workerLen]
          rw [Nat.min_eq_left (by omega)]
        rw [htake]
        by_cases h101 : j ≤ 101
        · rw [exec_soloRun_progress j h101]
          simp [ArchiveFile, StatusRunning, StatusComplete]
        · have h102 : j = 102 := by omega
          subst h102
          rw [exec_soloRun_102]
          simp [ArchiveFile]

/-- Witness of `solo_run_completes` at the last point before the end: after
`Run()` and 102 writes the status is already Complete but the path is not
yet written, and `ArchiveFile()` still returns the empty string. -/
theorem solo_run_completes_witness :
    (ArchiveFile (Job.exec Job.fresh ((soloRun workerLen).take 103)).a).1 = "" :=
  (solo_run_completes 103 (by decide)).2.2.2.2

/-! ## Theorems: the per-user table -/

theorem getArchiverForUser_present (r : Registry) (userID : String) (p : Nat)
    (h : r.userArchivers userID = some p) : GetArchiverForUser userID r = (p, r) := by
  simp [GetArchiverForUser, h]

/-- C6: `GetArchiverForUser` is idempotent: for every registry and user id a
second call returns the same pointer as the first and leaves the registry
exactly as the first call left it (heap and table unchanged). -/
theorem getArchiverForUser_idempotent (r : Registry) (userID : String) :
    (GetArchiverForUser userID (GetArchiverForUser userID r).2).1
        = (GetArchiverForUser userID r).1
      ∧ (GetArchiverForUser userID (GetArchiverForUser userID r).2).2
        = (GetArchiverForUser userID r).2
      ∧ (GetArchiverForUser userID (GetArchiverForUser userID r).2).2.heap.length
        = (GetArchiverForUser userID r).2.heap.length := by
  have key : (GetArchiverForUser userID r).2.userArchivers userID
      = some (GetArchiverForUser userID r).1 := by
    unfold GetArchiverForUser
    cases h : r.userArchivers userID with
    | none => simp
    | some p => simp [h]
  have h2 : GetArchiverForUser userID (GetArchiverForUser userID r).2
      = ((GetArchiverForUser userID r).1, (GetArchiverForUser userID r).2) :=
    getArchiverForUser_present _ _ _ key
  rw [h2]
  exact ⟨rfl, rfl, rfl⟩

/-- C7: `GetArchiverForUser` is total.  If the key is present it returns the
stored pointer and leaves heap and table unchanged; if the key is absent it
returns a new heap cell holding the fresh archiver (Waiting, Progress 0, empty
path), stores it under that key, and changes no existing cell and no other
key.  On a well-formed registry the returned pointer always dereferences and
the registry stays well-formed. -/
theorem getArchiverForUser_spec (r : Registry) (userID : String) :
    (∀ p, r.userArchivers userID = some p → GetArchiverForUser userID r = (p, r))
      ∧ (r.userArchivers userID = none →
          (GetArchiverForUser userID r).1 = r.heap.length
          ∧ (GetArchiverForUser userID r).2.deref (GetArchiverForUser userID r).1
              = some { Status := StatusWaiting, Progress := 0, FilePath := "" }
          ∧ (GetArchiverForUser userID r).2.userArchivers userID
              = some (GetArchiverForUser userID r).1
          ∧ (∀ q, q < r.heap.length → (GetArchiverForUser userID r).2.deref q = r.deref q)
          ∧ (∀ k, k ≠ userID →
              (GetArchiverForUser userID r).2.userArchivers k = r.userArchivers k))
      ∧ (r.wf →
          (GetArchiverForUser userID r).2.wf
          ∧ ∃ a, (GetArchiverForUser userID r).2.deref (GetArchiverForUser userID r).1
              = some a) := by
  refine ⟨?_, ?_, ?_⟩
  · intro p hp
    simp [GetArchiverForUser, hp]
  · intro hnone
    refine ⟨?_, ?_, ?_, ?_, ?_⟩
    · simp [GetArchiverForUser, hnone]
    · simp [GetArchiverForUser, hnone, Registry.deref, Archiver.fresh]
    · simp [GetArchiverForUser, hnone]
    · intro q hq
      simp [GetArchiverForUser, hnone, Registry.deref, List.getElem?_append_left hq]
    · intro k hk
      simp [GetArchiverForUser, hnone, hk]
  · intro hwf
    cases h : r.userArchivers userID with
    | some p =>
        have hlt := hwf userID p h
        refine ⟨by simpa [GetArchiverForUser, h] using hwf, ?_⟩
        refine ⟨r.heap.get ⟨p, hlt⟩, ?_⟩
        simp [GetArchiverForUser, h, Registry.deref, List.getElem?_eq_getElem hlt]
    | none =>
        refine ⟨?_, ⟨Archiver.fresh, by simp [GetArchiverForUser, h, Registry.deref]⟩⟩
        intro k p hkp
        simp only [GetArchiverForUser, h] at hkp
        by_cases hk : k = userID
        · simp [hk] at hkp
          simp [GetArchiverForUser, h, ← hkp]
        · simp [hk] at hkp
          have := hwf k p hkp
          simp [GetArchiverForUser, h]
          omega

/-- Witness of `getArchiverForUser_spec` on the empty table (key absent) and
on the table that call produces (key present). -/
theorem getArchiverForUser_spec_witness :
    ((GetArchiverForUser "u1" Registry.empty).1 = 0
        ∧ (GetArchiverForUser "u1" Registry.empty).2.deref 0
            = some { Status := StatusWaiting, Progress := 0, FilePath := "" })
      ∧ GetArchiverForUser "u1" (GetArchiverForUser "u1" Registry.empty).2
          = (0, (GetArchiverForUser "u1" Registry.empty).2)
      ∧ (GetArchiverForUser "u1" Registry.empty).2.wf :=
  ⟨⟨((getArchiverForUser_spec Registry.empty "u1").2.1 rfl).1,
    ((getArchiverForUser_spec Registry.empty "u1").2.1 rfl).2.1⟩,
   (getArchiverForUser_spec (GetArchiverForUser "u1" Registry.empty).2 "u1").1 0
      (by simp [GetArchiverForUser, Registry.empty]),
   ((getArchiverForUser_spec Registry.empty "u1").2.2
      (by intro k p h; simp [Registry.empty] at h)).1⟩

/-! ## Schedules of whole calls in which `Reset()` races a worker -/

/-- With whole calls as steps: after `Run()`, `Reset()`, `Run()` two workers are
in flight; the second `Run()` was called with one worker in flight and
scheduled another. -/
theorem whole_calls_run_reset_run :
    (Job.exec Job.fresh [Event.run, Event.reset]).inFlightCount = 1
      ∧ (Run (Job.exec Job.fresh [Event.run, Event.reset]).a).2 = [0]
      ∧ (Job.exec Job.fresh [Event.run, Event.reset, Event.run]).inFlightCount = 2
      ∧ ¬ (Job.exec Job.fresh [Event.run, Event.reset, Event.run]).inFlightCount ≤ 1 := by
  have h1 : Job.exec Job.fresh [Event.run, Event.reset]
      = { a := { Status := StatusWaiting, Progress := 0, FilePath := "" }, workers := [0] } := by
    simp [Job.exec, Job.step, Job.fresh, Archiver.fresh, Run, Reset, StatusWaiting]
  have h2 : Job.exec Job.fresh [Event.run, Event.reset, Event.run]
      = { a := { Status := StatusRunning, Progress := 0, FilePath := "" }, workers := [0, 0] } := by
    simp [Job.exec, Job.step, Job.fresh, Archiver.fresh, Run, Reset, StatusWaiting]
  rw [h1, h2]
  refine ⟨by decide, ?_, by decide, by decide⟩
  simp [Run, StatusWaiting]

/-- With whole calls as steps: a first worker has written 0 and 1/100 when the
job is reset and started again; the old worker then writes 2/100 (Running)
and the new worker writes 0 (Running).  Progress drops from 1/50 to 0. -/
theorem whole_calls_progress_drop :
    (Job.exec Job.fresh
        [Event.run, Event.work 0, Event.work 0, Event.reset, Event.run, Event.work 0]).a
        = { Status := StatusRunning, Progress := 1 / 50, FilePath := "" }
      ∧ (Job.exec
          (Job.exec Job.fresh
            [Event.run, Event.work 0, Event.work 0, Event.reset, Event.run, Event.work 0])
          [Event.work 1]).a
        = { Status := StatusRunning, Progress := 0, FilePath := "" }
      ∧ Event.reset ∉ [Event.work 1]
      ∧ ¬ ((Job.exec Job.fresh
            [Event.run, Event.work 0, Event.work 0, Event.reset, Event.run, Event.work 0]).a.Progress
          ≤ (Job.exec
              (Job.exec Job.fresh
                [Event.run, Event.work 0, Event.work 0, Event.reset, Event.run, Event.work 0])
              [Event.work 1]).a.Progress) := by
  have h1 : Job.exec Job.fresh
      [Event.run, Event.work 0, Event.work 0, Event.reset, Event.run, Event.work 0]
      = { a := { Status := StatusRunning, Progress := 1 / 50, FilePath := "" },
          workers := [3, 0] } := by
    simp [Job.exec, Job.step, Job.fresh, Archiver.fresh, Run, Reset, doArchiveStep, workerLen,
      StatusWaiting]
    norm_num
  have h2 : Job.exec
        { a := { Status := StatusRunning, Progress := 1 / 50, FilePath := "" },
          workers := [3, 0] } [Event.work 1]
      = { a := { Status := StatusRunning, Progress := 0, FilePath := "" },
          workers := [3, 1] } := by
    simp [Job.exec, Job.step, doArchiveStep, workerLen]
  rw [h1, h2]
  refine ⟨rfl, rfl, by decide, ?_⟩
  norm_num

/-- With whole calls as steps: after `Run()` and 102 worker writes the job is
Complete with an empty FilePath; and if `Reset()` is called at that point,
the worker's last write leaves a Waiting job with a non-empty FilePath. -/
theorem whole_calls_filePath_torn :
    ((Job.exec Job.fresh (soloRun 102)).a.Status = StatusComplete
        ∧ (Job.exec Job.fresh (soloRun 102)).a.FilePath = "")
      ∧ ((Job.exec Job.fresh (soloRun 102 ++ [Event.reset, Event.work 0])).a.Status
          = StatusWaiting
        ∧ (Job.exec Job.fresh (soloRun 102 ++ [Event.reset, Event.work 0])).a.FilePath
          = "/path/to/archive.zip"
        ∧ (Job.exec Job.fresh (soloRun 102 ++ [Event.reset, Event.work 0])).a.FilePath ≠ "") := by
  refine ⟨by rw [exec_soloRun_102]; exact ⟨rfl, rfl⟩, ?_⟩
  rw [exec_append, exec_soloRun_102]
  simp [Job.exec, Job.step, Reset, doArchiveStep, workerLen, archivePath]

/-! ## The order of status changes with whole calls as steps -/

/-- In the invariant the status is one of the three constants, and a Waiting
job has no goroutine in flight. -/
theorem inv_status_cases (s : Job) (hI : Inv s) :
    (s.a.Status = StatusWaiting ∧ AllDone s.workers)
      ∨ s.a.Status = StatusRunning ∨ s.a.Status = StatusComplete := by
  rcases hI with ⟨hd, hst⟩ | ⟨done, p, _, _, hst⟩
  · rcases hst with ⟨h1, _, _⟩ | ⟨h1, _, _⟩
    · exact Or.inl ⟨h1, hd⟩
    · exact Or.inr (Or.inr h1)
  · rcases hst with ⟨_, h1, _⟩ | ⟨_, h1, _⟩
    · exact Or.inr (Or.inl h1)
    · exact Or.inr (Or.inr h1)

/-- From a Waiting state with no goroutine in flight, a step other than
`Reset()` cannot make the status Complete. -/
theorem waiting_quiet_not_complete (s : Job) (e : Event) (he : e ≠ Event.reset)
    (hw : s.a.Status = StatusWaiting) (hd : AllDone s.workers) :
    (s.step e).a.Status ≠ StatusComplete := by
  obtain ⟨a, ws⟩ := s
  cases e with
  | run =>
      simp only at hw
      simp [Job.step, Run, hw, StatusRunning, StatusComplete]
  | reset => exact absurd rfl he
  | work k =>
      rw [step_work_allDone a ws k hd]
      simp only at hw
      rw [hw]
      decide

/-- With whole calls as steps: a worker that has done its 101 progress writes
when the job is reset then writes Status, which takes the job from Waiting
directly to Complete. -/
theorem whole_calls_waiting_to_complete :
    (Job.exec Job.fresh (soloRun 101 ++ [Event.reset])).a.Status = StatusWaiting
      ∧ ((Job.exec Job.fresh (soloRun 101 ++ [Event.reset])).step (Event.work 0)).a.Status
          = StatusComplete
      ∧ Event.work 0 ≠ Event.reset := by
  rw [exec_append, exec_soloRun_progress 101 (Nat.le_refl _)]
  refine ⟨?_, ?_, by decide⟩
  · simp [Job.exec, Job.step, Reset]
  · simp [Job.exec, Job.step, Reset, doArchiveStep, workerLen]

/-! ## Theorems: isolation between users -/

theorem ok_empty : Registry.empty.ok := by
  refine ⟨?_, ?_⟩
  · intro k p h
    simp [Registry.empty] at h
  · intro k1 k2 p h
    simp [Registry.empty] at h

theorem perform_userArchivers (r : Registry) (p : Nat) (op : Op) :
    (r.perform p op).userArchivers = r.userArchivers := by
  unfold Registry.perform
  split <;> rfl

theorem perform_heap_length (r : Registry) (p : Nat) (op : Op) :
    (r.perform p op).heap.length = r.heap.length := by
  unfold Registry.perform
  split
  · simp
  · rfl

theorem perform_deref_ne (r : Registry) (p q : Nat) (op : Op) (h : p ≠ q) :
    (r.perform p op).deref q = r.deref q := by
  unfold Registry.perform
  split
  · simp [Registry.deref, List.getElem?_set_ne h]
  · rfl

theorem ok_perform (r : Registry) (p : Nat) (op : Op) (h : r.ok) : (r.perform p op).ok := by
  unfold Registry.ok Registry.wf
  rw [perform_userArchivers, perform_heap_length]
  exact h

/-- A lookup keeps every entry that is already stored. -/
theorem get_keeps_entries (r : Registry) (u k : String) (p : Nat)
    (h : r.userArchivers k = some p) :
    (GetArchiverForUser u r).2.userArchivers k = some p := by
  cases hu : r.userArchivers u with
  | some q => simpa [GetArchiverForUser, hu] using h
  | none =>
      have hk : k ≠ u := by
        intro hc
        rw [hc, hu] at h
        exact Option.noConfusion h
      simpa [GetArchiverForUser, hu, hk] using h

/-- A lookup leaves the entries of all other keys as they are. -/
theorem get_other_keys (r : Registry) (u k : String) (hk : k ≠ u) :
    (GetArchiverForUser u r).2.userArchivers k = r.userArchivers k := by
  cases hu : r.userArchivers u with
  | some q => simp [GetArchiverForUser, hu]
  | none => simp [GetArchiverForUser, hu, hk]

/-- A lookup leaves every existing heap cell as it is. -/
theorem get_deref_old (r : Registry) (u : String) (q : Nat) (hq : q < r.heap.length) :
    (GetArchiverForUser u r).2.deref q = r.deref q := by
  cases hu : r.userArchivers u with
  | some p => simp [GetArchiverForUser, hu]
  | none => simp [GetArchiverForUser, hu, Registry.deref, List.getElem?_append_left hq]

theorem ok_get (r : Registry) (u : String) (h : r.ok) : (GetArchiverForUser u r).2.ok := by
  cases hu : r.userArchivers u with
  | some p => simpa [GetArchiverForUser, hu] using h
  | none =>
      obtain ⟨hwf, hinj⟩ := h
      refine ⟨?_, ?_⟩
      · intro k p hkp
        simp only [GetArchiverForUser, hu] at hkp
        by_cases hk : k = u
        · simp [hk] at hkp
          simp [GetArchiverForUser, hu, ← hkp]
        · simp [hk] at hkp
          have := hwf k p hkp
          simp [GetArchiverForUser, hu]
          omega
      · intro k1 k2 p h1 h2
        simp only [GetArchiverForUser, hu] at h1 h2
        by_cases hk1 : k1 = u
        · by_cases hk2 : k2 = u
          · rw [hk1, hk2]
          · simp [hk1] at h1
            simp [hk2] at h2
            have := hwf k2 p h2
            omega
        · by_cases hk2 : k2 = u
          · simp [hk1] at h1
            simp [hk2] at h2
            have := hwf k1 p h1
            omega
          · simp [hk1] at h1
            simp [hk2] at h2
            exact hinj k1 k2 p h1 h2

theorem ok_cmd (r : Registry) (c : Cmd) (h : r.ok) : (r.cmd c).ok := by
  cases c with
  | get u => exact ok_get r u h
  | act u op => exact ok_perform _ _ op (ok_get r u h)

theorem ok_foldl (cmds : List Cmd) :
    ∀ (r : Registry), r.ok → (cmds.foldl Registry.cmd r).ok := by
  induction cmds with
  | nil => intro r h; exact h
  | cons c cs ih => intro r h; exact ih _ (ok_cmd r c h)

theorem ok_run (cmds : List Cmd) : (Registry.run cmds).ok :=
  ok_foldl cmds Registry.empty ok_empty

/-- The pointer returned for one user differs from the pointer stored for
another user. -/
theorem get_ptr_ne (r : Registry) (A B : String) (pB : Nat) (h : r.ok) (hAB : A ≠ B)
    (hB : r.userArchivers B = some pB) : (GetArchiverForUser A r).1 ≠ pB := by
  obtain ⟨hwf, hinj⟩ := h
  cases hA : r.userArchivers A with
  | some pA =>
      simp only [GetArchiverForUser, hA]
      intro hc
      rw [hc] at hA
      exact hAB (hinj A B pB hA hB)
  | none =>
      simp only [GetArchiverForUser, hA]
      have := hwf B pB hB
      omega

/-- Operations on one pointer leave the cell behind another pointer and the
table as they are. -/
theorem perform_list_frame (ops : List Op) (p q : Nat) (h : p ≠ q) :
    ∀ (r : Registry),
      (ops.foldl (fun acc op => acc.perform p op) r).deref q = r.deref q
        ∧ (ops.foldl (fun acc op => acc.perform p op) r).userArchivers = r.userArchivers := by
  induction ops with
  | nil => intro r; exact ⟨rfl, rfl⟩
  | cons op os ih =>
      intro r
      have h1 := ih (r.perform p op)
      simp only [List.foldl_cons]
      rw [h1.1, h1.2, perform_deref_ne r p q op h, perform_userArchivers]
      exact ⟨rfl, rfl⟩

/-- C12: in every table built from the empty one by lookups and operations,
for distinct users A and B with B stored: `GetArchiverForUser(A)` keeps B's
entry and B's job; any sequence of `Run()`, `Reset()` and worker writes on the
job returned for A leaves B's job and B's entry unchanged; the lookup keeps
every stored entry and changes no key other than A. -/
theorem per_user_isolation (cmds : List Cmd) (A B : String) (pB : Nat) (hAB : A ≠ B)
    (hB : (Registry.run cmds).userArchivers B = some pB) :
    (∃ b, (Registry.run cmds).deref pB = some b)
      ∧ (GetArchiverForUser A (Registry.run cmds)).2.userArchivers B = some pB
      ∧ (GetArchiverForUser A (Registry.run cmds)).2.deref pB = (Registry.run cmds).deref pB
      ∧ (∀ ops : List Op,
          (ops.foldl (fun acc op => acc.perform (GetArchiverForUser A (Registry.run cmds)).1 op)
              (GetArchiverForUser A (Registry.run cmds)).2).deref pB
            = (Registry.run cmds).deref pB
          ∧ (ops.foldl (fun acc op => acc.perform (GetArchiverForUser A (Registry.run cmds)).1 op)
              (GetArchiverForUser A (Registry.run cmds)).2).userArchivers B = some pB)
      ∧ (∀ k p, (Registry.run cmds).userArchivers k = some p →
          (GetArchiverForUser A (Registry.run cmds)).2.userArchivers k = some p)
      ∧ (∀ k, k ≠ A →
          (GetArchiverForUser A (Registry.run cmds)).2.userArchivers k
            = (Registry.run cmds).userArchivers k) := by
  have hok := ok_run cmds
  have hlt : pB < (Registry.run cmds).heap.length := hok.1 B pB hB
  have hkeep := get_keeps_entries (Registry.run cmds) A B pB hB
  have hder := get_deref_old (Registry.run cmds) A pB hlt
  have hne := get_ptr_ne (Registry.run cmds) A B pB hok hAB hB
  refine ⟨?_, hkeep, hder, ?_, ?_, ?_⟩
  · exact ⟨(Registry.run cmds).heap.get ⟨pB, hlt⟩, by
      simp [Registry.deref, List.getElem?_eq_getElem hlt]⟩
  · intro ops
    have hf := perform_list_frame ops _ pB hne (GetArchiverForUser A (Registry.run cmds)).2
    rw [hf.1, hf.2]
    exact ⟨hder, hkeep⟩
  · intro k p hkp
    exact get_keeps_entries _ A k p hkp
  · intro k hk
    exact get_other_keys _ A k hk

/-- Witness of `per_user_isolation`: user B has been looked up and started;
then user A is looked up, started, advanced by one worker write and reset,
and B's job is still Running. -/
theorem per_user_isolation_witness :
    ([Op.run, Op.write 0, Op.reset].foldl
        (fun acc op => acc.perform
          (GetArchiverForUser "A" (Registry.run [Cmd.get "B", Cmd.act "B" Op.run])).1 op)
        (GetArchiverForUser "A" (Registry.run [Cmd.get "B", Cmd.act "B" Op.run])).2).deref 0
      = (Registry.run [Cmd.get "B", Cmd.act "B" Op.run]).deref 0 :=
  ((per_user_isolation [Cmd.get "B", Cmd.act "B" Op.run] "A" "B" 0 (by decide)
      (by decide)).2.2.2.1 [Op.run, Op.write 0, Op.reset]).1

/-! ## Theorems: the job used by the HTTP handlers -/

theorem main_eq (user_id : String) :
    main user_id
      = some { reg := (GetArchiverForUser user_id Registry.empty).2,
               myArchiver := Job.fresh,
               user_id := user_id } := by
  simp [main, GetArchiverForUser, Registry.empty, Registry.deref, Job.fresh]

theorem app_step_frame (s : AppState) (rq : Request) :
    (s.step rq).reg = s.reg ∧ (s.step rq).user_id = s.user_id := by
  cases rq <;> exact ⟨rfl, rfl⟩

theorem app_exec_frame (rs : List Request) :
    ∀ (s : AppState), (s.exec rs).reg = s.reg ∧ (s.exec rs).user_id = s.user_id := by
  induction rs with
  | nil => intro s; exact ⟨rfl, rfl⟩
  | cons rq rest ih =>
      intro s
      have h1 := ih (s.step rq)
      have h2 := app_step_frame s rq
      simp only [AppState.exec, List.foldl_cons] at h1 ⊢
      rw [h1.1, h1.2, h2.1, h2.2]
      exact ⟨rfl, rfl⟩

theorem registryJob_after_main (user_id : String) (s : AppState)
    (hr : s.reg = (GetArchiverForUser user_id Registry.empty).2) (hu : s.user_id = user_id) :
    s.registryJob = some Archiver.fresh := by
  simp [AppState.registryJob, hr, hu, GetArchiverForUser, Registry.empty, Registry.deref]

/-- C13 (counterexample): after `main` and one `post_archive_handler` the
handlers' job `myArchiver` is Running while the job that
`GetArchiverForUser(user_id)` returns is still Waiting. -/
theorem handlers_job_differs_counterexample :
    (main "u").map (fun s => (s.exec [Request.post_archive]).myArchiver.a.Status)
        = some StatusRunning
      ∧ (main "u").map
          (fun s => (s.exec [Request.post_archive]).registryJob.map Archiver.Status)
        = some (some StatusWaiting)
      ∧ (main "u").map (fun s => (s.exec [Request.post_archive]).registryJob)
        ≠ (main "u").map (fun s => some (s.exec [Request.post_archive]).myArchiver.a) := by
  refine ⟨by decide, by decide, ?_⟩
  rw [main_eq]
  simp [AppState.exec, AppState.step, post_archive_handler, AppState.registryJob,
    GetArchiverForUser, Registry.empty, Registry.deref, Job.step, Job.fresh, Run,
    Archiver.fresh, StatusWaiting, StatusRunning]

/-- C13 (amended): `main` succeeds and makes `myArchiver` a copy of the job of
the table for `user_id`: right after initialisation both are the fresh job.
In every state reachable afterwards through `post_archive_handler`,
`get_archive_handler`, `delete_archive_handler` and worker writes, the table
is unchanged and the job that `GetArchiverForUser(user_id)` returns is still
the fresh job, so `myArchiver` equals it exactly when `myArchiver` is itself
Waiting with Progress 0 and an empty path. -/
theorem handlers_act_on_copy (user_id : String) (rs : List Request) :
    ∃ s0, main user_id = some s0
      ∧ s0.myArchiver.a = { Status := StatusWaiting, Progress := 0, FilePath := "" }
      ∧ s0.registryJob = some s0.myArchiver.a
      ∧ (s0.exec rs).reg = s0.reg
      ∧ (s0.exec rs).registryJob
          = some { Status := StatusWaiting, Progress := 0, FilePath := "" }
      ∧ ((s0.exec rs).registryJob = some (s0.exec rs).myArchiver.a
          ↔ (s0.exec rs).myArchiver.a
              = { Status := StatusWaiting, Progress := 0, FilePath := "" }) := by
  refine ⟨_, main_eq user_id, rfl, ?_, ?_, ?_, ?_⟩
  · exact registryJob_after_main user_id _ rfl rfl
  · exact (app_exec_frame rs _).1
  · exact registryJob_after_main user_id _ (app_exec_frame rs _).1 (app_exec_frame rs _).2
  · rw [registryJob_after_main user_id _ (app_exec_frame rs _).1 (app_exec_frame rs _).2]
    constructor
    · intro h
      exact (Option.some.inj h).symm
    · intro h
      rw [h]
      rfl

/-! ## Theorems: two concurrent `Run()` calls -/

/-- The two steps of a split `Run()` call, taken without interruption, do what
`Run` does. -/
theorem runStep_twice (s : Job) :
    (runStep (runStep 0 s).1 (runStep 0 s).2).2
      = { a := (Run s.a).1, workers := s.workers ++ (Run s.a).2 } := by
  by_cases h : s.a.Status = StatusWaiting
  · simp [runStep, Run, h]
  · simp [runStep, Run, h]

theorem complete_length (sched : List Bool) (h : completeSchedule sched = true) :
    sched.length = 4 := by
  simp only [completeSchedule, Bool.and_eq_true, decide_eq_true_eq] at h
  have := List.count_true_add_count_false sched
  omega

/-- C14 (counterexample): both calls read Status before either writes it; both
see Waiting and both schedule a worker. -/
theorem double_start_counterexample :
    completeSchedule [true, false, true, false] = true
      ∧ (TwoRuns.exec [true, false]).pc1 = 1
      ∧ (TwoRuns.exec [true, false]).pc2 = 1
      ∧ (TwoRuns.exec [true, false, true, false]).job.workers = [0, 0]
      ∧ (TwoRuns.exec [true, false, true, false]).pc1 = 3
      ∧ (TwoRuns.exec [true, false, true, false]).pc2 = 3 := by
  decide

/-- C14 (amended): in the model where each `Run()` call is a read of Status
followed by a separate write of Status with the scheduling of the worker, for
every complete interleaving of two calls on a fresh job: if the call that
steps first finishes before the other starts, exactly one worker is scheduled
and the other call returns at its guard having seen a Status that is not
Waiting; in every other interleaving both reads precede both writes and both
calls schedule a worker. -/
theorem two_runs_interleavings (sched : List Bool) (hc : completeSchedule sched = true) :
    (serialSchedule sched = true →
        (TwoRuns.exec sched).job.workers = [0]
          ∧ (TwoRuns.exec sched).job.a.Status = StatusRunning
          ∧ (((TwoRuns.exec sched).pc1 = 3 ∧ (TwoRuns.exec sched).pc2 = 2)
            ∨ ((TwoRuns.exec sched).pc1 = 2 ∧ (TwoRuns.exec sched).pc2 = 3)))
      ∧ (serialSchedule sched = false →
          (TwoRuns.exec sched).job.workers = [0, 0]
            ∧ (TwoRuns.exec sched).pc1 = 3 ∧ (TwoRuns.exec sched).pc2 = 3) := by
  have hlen := complete_length sched hc
  match sched, hlen, hc with
  | [b1, b2, b3, b4], _, hc =>
      revert hc
      cases b1 <;> cases b2 <;> cases b3 <;> cases b4 <;> decide

/-- Witness of `two_runs_interleavings` on a serial interleaving (first call
entirely before the second) and on an overlapping one. -/
theorem two_runs_interleavings_witness :
    ((TwoRuns.exec [true, true, false, false]).job.workers = [0]
        ∧ (TwoRuns.exec [true, true, false, false]).job.a.Status = StatusRunning
        ∧ (((TwoRuns.exec [true, true, false, false]).pc1 = 3
            ∧ (TwoRuns.exec [true, true, false, false]).pc2 = 2)
          ∨ ((TwoRuns.exec [true, true, false, false]).pc1 = 2
            ∧ (TwoRuns.exec [true, true, false, false]).pc2 = 3)))
      ∧ ((TwoRuns.exec [false, true, true, false]).job.workers = [0, 0]
        ∧ (TwoRuns.exec [false, true, true, false]).pc1 = 3
        ∧ (TwoRuns.exec [false, true, true, false]).pc2 = 3) :=
  ⟨(two_runs_interleavings [true, true, false, false] (by decide)).1 (by decide),
   (two_runs_interleavings [false, true, true, false] (by decide)).2 (by decide)⟩

/-! ## Theorems: pagination of the contact list -/

theorem wrapInt_of_range (x : Int) (h1 : -(2 ^ 63) ≤ x) (h2 : x ≤ maxInt) : wrapInt x = x := by
  unfold wrapInt
  unfold maxInt at h2
  omega

/-- From a non-negative index the loop appends the contacts at indices
`i, i + 1, ...` below `limit` and below the length of the list. -/
theorem get_contact_list_loop_spec (contacts : List Contact) (limit : Int) :
    ∀ (n : Nat) (i : Int) (acc : List Contact), 0 ≤ i → (limit - i).toNat = n →
      get_contact_list_loop contacts limit i acc
        = some (acc ++ (contacts.drop i.toNat).take n) := by
  intro n
  induction n with
  | zero =>
      intro i acc _ hn
      have hnot : ¬ i < limit := by omega
      rw [get_contact_list_loop]
      simp [hnot]
  | succ m ih =>
      intro i acc hi hn
      have hlt : i < limit := by omega
      rw [get_contact_list_loop]
      by_cases hlen : i < (contacts.length : Int)
      · have hnat : i.toNat < contacts.length := by omega
        have hsucc : (i + 1).toNat = i.toNat + 1 := by omega
        simp only [hlt, hlen, and_self, if_true, hi, List.get?_eq_getElem?,
          List.getElem?_eq_getElem hnat]
        rw [ih (i + 1) _ (by omega) (by omega), hsucc, List.drop_eq_getElem_cons hnat,
          List.take_succ_cons]
        simp
      · have hdrop : contacts.drop i.toNat = [] :=
          List.drop_eq_nil_of_le (by omega)
        simp [hlen, hdrop]

/-- For a page whose tenfold fits an `int`, `get_contact_list` returns without
a panic the contacts at indices `(page - 1) * 10` up to, and excluding, the
smaller of `page * 10` and the length of the list, in list order. -/
theorem get_contact_list_in_range (contacts : List Contact) (page : Int) (h1 : 1 ≤ page)
    (h2 : page * 10 ≤ maxInt) :
    get_contact_list contacts page
      = some ((contacts.drop ((page - 1) * 10).toNat).take 10) := by
  unfold maxInt at h2
  have e1 : wrapInt (page - 1) = page - 1 :=
    wrapInt_of_range _ (by omega) (by unfold maxInt; omega)
  have e2 : wrapInt ((page - 1) * 10) = (page - 1) * 10 :=
    wrapInt_of_range _ (by omega) (by unfold maxInt; omega)
  have e3 : wrapInt ((page - 1) * 10 + 10) = (page - 1) * 10 + 10 :=
    wrapInt_of_range _ (by omega) (by unfold maxInt; omega)
  unfold get_contact_list
  simp only [e1, e2, e3]
  rw [get_contact_list_loop_spec contacts _ 10 _ [] (by omega) (by omega)]
  simp

/-- C15 (failing input): the page number 922337203685477582 passes the guard
of `contact_query_handler` unchanged; in `get_contact_list` the product
`p * 10` wraps to a negative `int`, the loop condition holds, and the first
`contacts[i]` is an index out of range, whatever the contact list. -/
theorem get_contact_list_overflow_panics (contacts : List Contact) :
    1 ≤ (922337203685477582 : Int)
      ∧ (922337203685477582 : Int) ≤ maxInt
      ∧ contact_query_page 922337203685477582 = 922337203685477582
      ∧ wrapInt (wrapInt (922337203685477582 - 1) * 10) = -9223372036854775806
      ∧ get_contact_list contacts 922337203685477582 = none := by
  have e1 : wrapInt (922337203685477582 - 1) = 922337203685477581 := by
    unfold wrapInt; norm_num
  have e2 : wrapInt (922337203685477581 * 10) = -9223372036854775806 := by
    unfold wrapInt; norm_num
  have e3 : wrapInt (-9223372036854775806 + 10) = -9223372036854775796 := by
    unfold wrapInt; norm_num
  refine ⟨by norm_num, by unfold maxInt; norm_num, by simp [contact_query_page], ?_, ?_⟩
  · rw [e1, e2]
  · unfold get_contact_list
    simp only [e1, e2, e3]
    rw [get_contact_list_loop]
    have hlen : (-9223372036854775806 : Int) < (contacts.length : Int) := by omega
    simp [hlen]

/-! ## The interleaving inside the calls: basic lemmas -/

theorem sys_exec_append (s : Sys) (xs ys : List Act) :
    Sys.exec s (xs ++ ys) = Sys.exec (Sys.exec s xs) ys := by
  simp [Sys.exec, List.foldl_append]

theorem sys_exec_cons (s : Sys) (e : Act) (es : List Act) :
    Sys.exec s (e :: es) = Sys.exec (s.step e) es := rfl

theorem runStep_zero_job (j : Job) : (runStep 0 j).2 = j := by
  unfold runStep
  by_cases h : j.a.Status = StatusWaiting <;> simp [h]

theorem runStep_zero_waiting (j : Job) (h : j.a.Status = StatusWaiting) :
    (runStep 0 j).1 = 1 := by
  simp [runStep, h]

theorem runStep_zero_other (j : Job) (h : j.a.Status ≠ StatusWaiting) :
    (runStep 0 j).1 ≠ 1 := by
  simp [runStep, h]

theorem runStep_one_of_waiting (j : Job) (h : j.a.Status = StatusWaiting) :
    (runStep 1 j).2 = j.step Event.run := by
  simp [runStep, Job.step, Run, h]

/-- Three stores of `Reset()` in a row do what `Reset` does. -/
theorem resetStep_thrice (a : Archiver) :
    resetStep 2 (resetStep 1 (resetStep 0 a)) = Reset a := by
  simp [resetStep, Reset]

/-- A whole call, run without interruption on a job with no call under way,
does what the corresponding step of `Job.step` does. -/
theorem exec_event_acts (j : Job) (e : Event) :
    Sys.exec (Sys.ofJob j) e.acts = Sys.ofJob (j.step e) := by
  cases e with
  | run =>
      by_cases h : j.a.Status = StatusWaiting
      · simp [Event.acts, Sys.exec, Sys.step, Sys.ofJob, runStep, Job.step, Run, h]
      · simp [Event.acts, Sys.exec, Sys.step, Sys.ofJob, runStep, Job.step, Run, h]
  | reset =>
      simp [Event.acts, Sys.exec, Sys.step, Sys.ofJob, resetStep, Job.step, Reset]
  | work k =>
      simp [Event.acts, Sys.exec, Sys.step, Sys.ofJob]

/-- Calls that follow one another: the interleaving of their steps reaches
the state that `Job.exec` computes. -/
theorem exec_atomicActs (evs : List Event) :
    ∀ (j : Job), Sys.exec (Sys.ofJob j) (atomicActs evs) = Sys.ofJob (Job.exec j evs) := by
  induction evs with
  | nil => intro j; rfl
  | cons e es ih =>
      intro j
      rw [atomicActs, sys_exec_append, exec_event_acts, ih, exec_cons]

theorem exec_atomicActs_init (evs : List Event) :
    Sys.exec Sys.init (atomicActs evs) = Sys.ofJob (Job.exec Job.fresh evs) :=
  exec_atomicActs evs Job.fresh

theorem atomicActs_append (xs ys : List Event) :
    atomicActs (xs ++ ys) = atomicActs xs ++ atomicActs ys := by
  induction xs with
  | nil => rfl
  | cons e es ih => simp [atomicActs, ih]

/-! ## The invariant of interleavings with serial calls -/

theorem job_step_work_allDone (j : Job) (k : Nat) (h : AllDone j.workers) :
    j.step (Event.work k) = j := by
  obtain ⟨a, ws⟩ := j
  exact step_work_allDone a ws k h

theorem inv_quiet (j : Job) (hI : Inv j) (h0 : j.inFlightCount = 0) :
    AllDone j.workers ∧ (Cleared j.a ∨ Finished j.a) := by
  obtain ⟨a, ws⟩ := j
  rcases hI with ⟨hd, hst⟩ | ⟨done, p, hws, hd, hst⟩
  · exact ⟨hd, hst⟩
  · simp only at hws
    subst hws
    have hp : p < workerLen := by
      unfold workerLen
      rcases hst with ⟨h, _⟩ | ⟨h, _⟩ <;> omega
    rw [inFlightCount_last a done p hd hp] at h0
    exact absurd h0 (by decide)

theorem inv_waiting (j : Job) (hI : Inv j) (hw : j.a.Status = StatusWaiting) :
    AllDone j.workers ∧ Cleared j.a := by
  rcases hI with ⟨hd, hst⟩ | ⟨done, p, _, _, hst⟩
  · rcases hst with hc | ⟨h1, _, _⟩
    · exact ⟨hd, hc⟩
    · rw [hw] at h1
      exact absurd h1 (by decide)
  · rcases hst with ⟨_, h1, _⟩ | ⟨_, h1, _⟩ <;>
      · rw [hw] at h1
        exact absurd h1 (by decide)

theorem finv_init : FInv Sys.init :=
  Or.inl ⟨rfl, inv_fresh⟩

/-- One step keeps `FInv`, provided `Run()` and `Reset()` are entered only with
no call under way and `Reset()` only with no worker in flight.  A step that
does not belong to `Reset()` either leaves the job as it is or changes it as a
step of `Job.step` changes a job in `Inv`. -/
theorem finv_step (s : Sys) (e : Act) (hI : FInv s)
    (hrun : e = Act.callRun → s.pending = 0)
    (hreset : e = Act.callReset → s.pending = 0 ∧ s.job.inFlightCount = 0) :
    FInv (s.step e)
      ∧ (e.isReset = false →
          (s.step e).job = s.job
            ∨ ∃ ev, ev ≠ Event.reset ∧ Inv s.job ∧ (s.step e).job = s.job.step ev) := by
  obtain ⟨j, n0, n1, r0, r1, r2⟩ := s
  simp only [FInv, Sys.pending] at hI
  cases e with
  | callRun =>
      have hp := hrun rfl
      simp only [Sys.pending] at hp
      refine ⟨?_, fun _ => Or.inl rfl⟩
      rcases hI with ⟨_, h⟩ | ⟨h1, _⟩ | ⟨h1, _⟩ | ⟨h1, _⟩ | ⟨h1, _⟩ | ⟨h1, _⟩
      · refine Or.inr (Or.inl ⟨?_, ?_, h⟩)
        · simp only [Sys.step, Sys.pending]; omega
        · simp only [Sys.step]; omega
      all_goals omega
  | runRead =>
      by_cases hn : 0 < n0
      · have hjob : (Sys.step ⟨j, n0, n1, r0, r1, r2⟩ Act.runRead).job = j := by
          simp [Sys.step, hn, runStep_zero_job]
        refine ⟨?_, fun _ => Or.inl hjob⟩
        rcases hI with ⟨h1, _⟩ | ⟨h1, h2, h⟩ | ⟨h1, h2, _⟩ | ⟨h1, h2, _⟩ | ⟨h1, h2, _⟩
          | ⟨h1, h2, _⟩
        · omega
        · by_cases hw : j.a.Status = StatusWaiting
          · have hq := inv_waiting j h hw
            refine Or.inr (Or.inr (Or.inl ⟨?_, ?_, ?_, ?_⟩))
            · simp only [Sys.step, hn, if_true, Sys.pending, runStep_zero_waiting j hw]; omega
            · simp only [Sys.step, hn, if_true, runStep_zero_waiting j hw]; omega
            · simp only [Sys.step, hn, if_true, runStep_zero_job]; exact hq.1
            · simp only [Sys.step, hn, if_true, runStep_zero_job]; exact hq.2
          · refine Or.inl ⟨?_, ?_⟩
            · simp only [Sys.step, hn, if_true, Sys.pending, runStep_zero_other j hw, if_false]
              omega
            · simp only [Sys.step, hn, if_true, runStep_zero_job]; exact h
        all_goals omega
      · have hsame : Sys.step ⟨j, n0, n1, r0, r1, r2⟩ Act.runRead = ⟨j, n0, n1, r0, r1, r2⟩ := by
          simp [Sys.step, hn]
        rw [hsame]
        exact ⟨hI, fun _ => Or.inl rfl⟩
  | runWrite =>
      by_cases hn : 0 < n1
      · rcases hI with ⟨h1, _⟩ | ⟨h1, h2, _⟩ | ⟨h1, h2, hd, hc⟩ | ⟨h1, h2, _⟩ | ⟨h1, h2, _⟩
          | ⟨h1, h2, _⟩
        · omega
        · omega
        · have hInv : Inv j := Or.inl ⟨hd, Or.inl hc⟩
          have hjob : (Sys.step ⟨j, n0, n1, r0, r1, r2⟩ Act.runWrite).job = j.step Event.run := by
            simp only [Sys.step, hn, if_true]
            exact runStep_one_of_waiting j hc.1
          refine ⟨Or.inl ⟨?_, ?_⟩, fun _ => Or.inr ⟨Event.run, by decide, hInv, hjob⟩⟩
          · simp only [Sys.step, hn, if_true, Sys.pending]; omega
          · rw [hjob]
            exact (inv_step j Event.run hInv (fun hc => Event.noConfusion hc)).1
        all_goals omega
      · have hsame : Sys.step ⟨j, n0, n1, r0, r1, r2⟩ Act.runWrite = ⟨j, n0, n1, r0, r1, r2⟩ := by
          simp [Sys.step, hn]
        rw [hsame]
        exact ⟨hI, fun _ => Or.inl rfl⟩
  | callReset =>
      have hp := hreset rfl
      simp only [Sys.pending] at hp
      refine ⟨?_, fun h => by simp [Act.isReset] at h⟩
      rcases hI with ⟨_, h⟩ | ⟨h1, _⟩ | ⟨h1, _⟩ | ⟨h1, _⟩ | ⟨h1, _⟩ | ⟨h1, _⟩
      · have hq := inv_quiet j h hp.2
        refine Or.inr (Or.inr (Or.inr (Or.inl ⟨?_, ?_, hq.1, hq.2⟩)))
        · simp only [Sys.step, Sys.pending]; omega
        · simp only [Sys.step]; omega
      all_goals omega
  | resetStatus =>
      refine ⟨?_, fun h => by simp [Act.isReset] at h⟩
      by_cases hn : 0 < r0
      · rcases hI with ⟨h1, _⟩ | ⟨h1, h2, _⟩ | ⟨h1, h2, _⟩ | ⟨h1, h2, hd, hc⟩ | ⟨h1, h2, _⟩
          | ⟨h1, h2, _⟩
        · omega
        · omega
        · omega
        · refine Or.inr (Or.inr (Or.inr (Or.inr (Or.inl ⟨?_, ?_, ?_, ?_, ?_⟩))))
          · simp only [Sys.step, hn, if_true, Sys.pending]; omega
          · simp only [Sys.step, hn, if_true]; omega
          · simp only [Sys.step, hn, if_true]; exact hd
          · simp [Sys.step, hn, resetStep]
          · rcases hc with ⟨_, hp, hf⟩ | ⟨_, hp, hf⟩
            · exact Or.inl (by simp [Sys.step, hn, resetStep, hp, hf])
            · exact Or.inr (by simp [Sys.step, hn, resetStep, hp, hf])
        all_goals omega
      · have hsame : Sys.step ⟨j, n0, n1, r0, r1, r2⟩ Act.resetStatus
            = ⟨j, n0, n1, r0, r1, r2⟩ := by
          simp [Sys.step, hn]
        rw [hsame]
        exact hI
  | resetProgress =>
      refine ⟨?_, fun h => by simp [Act.isReset] at h⟩
      by_cases hn : 0 < r1
      · rcases hI with ⟨h1, _⟩ | ⟨h1, h2, _⟩ | ⟨h1, h2, _⟩ | ⟨h1, h2, _⟩ | ⟨h1, h2, hd, hw, hc⟩
          | ⟨h1, h2, _⟩
        · omega
        · omega
        · omega
        · omega
        · refine Or.inr (Or.inr (Or.inr (Or.inr (Or.inr ⟨?_, ?_, ?_, ?_, ?_, ?_⟩))))
          · simp only [Sys.step, hn, if_true, Sys.pending]; omega
          · simp only [Sys.step, hn, if_true]; omega
          · simp only [Sys.step, hn, if_true]; exact hd
          · simp [Sys.step, hn, resetStep, hw]
          · simp [Sys.step, hn, resetStep]
          · rcases hc with ⟨_, hf⟩ | ⟨_, hf⟩
            · exact Or.inl (by simp [Sys.step, hn, resetStep, hf])
            · exact Or.inr (by simp [Sys.step, hn, resetStep, hf])
        · omega
      · have hsame : Sys.step ⟨j, n0, n1, r0, r1, r2⟩ Act.resetProgress
            = ⟨j, n0, n1, r0, r1, r2⟩ := by
          simp [Sys.step, hn]
        rw [hsame]
        exact hI
  | resetFilePath =>
      refine ⟨?_, fun h => by simp [Act.isReset] at h⟩
      by_cases hn : 0 < r2
      · rcases hI with ⟨h1, _⟩ | ⟨h1, h2, _⟩ | ⟨h1, h2, _⟩ | ⟨h1, h2, _⟩ | ⟨h1, h2, _⟩
          | ⟨h1, h2, hd, hw, hp, _⟩
        · omega
        · omega
        · omega
        · omega
        · omega
        · refine Or.inl ⟨?_, Or.inl ⟨?_, Or.inl ⟨?_, ?_, ?_⟩⟩⟩
          · simp only [Sys.step, hn, if_true, Sys.pending]; omega
          · simp only [Sys.step, hn, if_true]; exact hd
          · simp [Sys.step, hn, resetStep, hw]
          · simp [Sys.step, hn, resetStep, hp]
          · simp [Sys.step, hn, resetStep]
      · have hsame : Sys.step ⟨j, n0, n1, r0, r1, r2⟩ Act.resetFilePath
            = ⟨j, n0, n1, r0, r1, r2⟩ := by
          simp [Sys.step, hn]
        rw [hsame]
        exact hI
  | work k =>
      have hstep : Sys.step ⟨j, n0, n1, r0, r1, r2⟩ (Act.work k)
          = ⟨j.step (Event.work k), n0, n1, r0, r1, r2⟩ := rfl
      rw [hstep]
      have hkeep : ∀ (hd : AllDone j.workers), j.step (Event.work k) = j :=
        fun hd => job_step_work_allDone j k hd
      have hinv : ∀ (h : Inv j), Inv (j.step (Event.work k)) :=
        fun h => (inv_step j (Event.work k) h (fun hc => Event.noConfusion hc)).1
      rcases hI with ⟨h1, h⟩ | ⟨h1, h2, h⟩ | ⟨h1, h2, hd, hc⟩ | ⟨h1, h2, hd, hc⟩
        | ⟨h1, h2, hd, hc⟩ | ⟨h1, h2, hd, hc⟩
      · exact ⟨Or.inl ⟨h1, hinv h⟩, fun _ => Or.inr ⟨Event.work k, fun hc => Event.noConfusion hc, h, rfl⟩⟩
      · exact ⟨Or.inr (Or.inl ⟨h1, h2, hinv h⟩),
          fun _ => Or.inr ⟨Event.work k, fun hc => Event.noConfusion hc, h, rfl⟩⟩
      · rw [hkeep hd]
        exact ⟨Or.inr (Or.inr (Or.inl ⟨h1, h2, hd, hc⟩)), fun _ => Or.inl rfl⟩
      · rw [hkeep hd]
        exact ⟨Or.inr (Or.inr (Or.inr (Or.inl ⟨h1, h2, hd, hc⟩))), fun _ => Or.inl rfl⟩
      · rw [hkeep hd]
        exact ⟨Or.inr (Or.inr (Or.inr (Or.inr (Or.inl ⟨h1, h2, hd, hc⟩)))), fun _ => Or.inl rfl⟩
      · rw [hkeep hd]
        exact ⟨Or.inr (Or.inr (Or.inr (Or.inr (Or.inr ⟨h1, h2, hd, hc⟩)))), fun _ => Or.inl rfl⟩

theorem serialCalls_cons (s : Sys) (e : Act) (es : List Act) :
    serialCalls s (e :: es)
      = ((match e with
          | Act.callRun => decide (s.pending = 0)
          | Act.callReset => decide (s.pending = 0) && decide (s.job.inFlightCount = 0)
          | _ => true)
        && serialCalls (s.step e) es) := rfl

theorem serialCalls_append (xs : List Act) :
    ∀ (s : Sys) (ys : List Act),
      serialCalls s (xs ++ ys) = (serialCalls s xs && serialCalls (Sys.exec s xs) ys) := by
  induction xs with
  | nil => intro s ys; simp [serialCalls, Sys.exec]
  | cons e es ih =>
      intro s ys
      rw [List.cons_append, serialCalls_cons, serialCalls_cons, ih, sys_exec_cons,
        Bool.and_assoc]

/-- What `serialCalls` says about the first step of a schedule. -/
theorem serialCalls_head (s : Sys) (e : Act) (es : List Act)
    (h : serialCalls s (e :: es) = true) :
    (e = Act.callRun → s.pending = 0)
      ∧ (e = Act.callReset → s.pending = 0 ∧ s.job.inFlightCount = 0)
      ∧ serialCalls (s.step e) es = true := by
  rw [serialCalls_cons, Bool.and_eq_true] at h
  refine ⟨?_, ?_, h.2⟩
  · intro he
    subst he
    simpa using h.1
  · intro he
    subst he
    simpa using h.1

theorem finv_exec (acts : List Act) :
    ∀ (s : Sys), FInv s → serialCalls s acts = true → FInv (Sys.exec s acts) := by
  induction acts with
  | nil => intro s hI _; exact hI
  | cons e es ih =>
      intro s hI hq
      have hh := serialCalls_head s e es hq
      rw [sys_exec_cons]
      exact ih _ (finv_step s e hI hh.1 hh.2.1).1 hh.2.2

theorem finv_reachable (acts : List Act) (h : serialCalls Sys.init acts = true) :
    FInv (Sys.exec Sys.init acts) :=
  finv_exec acts Sys.init finv_init h

/-- In `FInv` at most one worker is in flight, and with a worker in flight no
`Run()` call is about to store. -/
theorem finv_inFlight (s : Sys) (hI : FInv s) :
    s.job.inFlightCount ≤ 1 ∧ (0 < s.job.inFlightCount → s.runs1 = 0) := by
  have hzero : ∀ (hd : AllDone s.job.workers), s.job.inFlightCount = 0 := by
    intro hd
    have := inFlightCount_allDone s.job.a s.job.workers hd
    simpa using this
  rcases hI with ⟨h1, h⟩ | ⟨h1, h2, h⟩ | ⟨h1, h2, hd, _⟩ | ⟨h1, h2, hd, _⟩ | ⟨h1, h2, hd, _⟩
    | ⟨h1, h2, hd, _⟩
  · refine ⟨inFlightCount_le_one_of_inv _ h, fun _ => ?_⟩
    simp only [Sys.pending] at h1
    omega
  · refine ⟨inFlightCount_le_one_of_inv _ h, fun _ => ?_⟩
    simp only [Sys.pending] at h1
    omega
  · rw [hzero hd]
    exact ⟨Nat.zero_le 1, fun h => absurd h (Nat.lt_irrefl 0)⟩
  · rw [hzero hd]
    exact ⟨Nat.zero_le 1, fun h => absurd h (Nat.lt_irrefl 0)⟩
  · rw [hzero hd]
    exact ⟨Nat.zero_le 1, fun h => absurd h (Nat.lt_irrefl 0)⟩
  · rw [hzero hd]
    exact ⟨Nat.zero_le 1, fun h => absurd h (Nat.lt_irrefl 0)⟩

/-- In `FInv`, unless a `Reset()` call is between its first store and its
return, the job is in `Inv`. -/
theorem finv_inv (s : Sys) (hI : FInv s) (hr : s.resets1 + s.resets2 = 0) : Inv s.job := by
  rcases hI with ⟨_, h⟩ | ⟨_, _, h⟩ | ⟨_, _, hd, hc⟩ | ⟨_, _, hd, hc⟩ | ⟨_, h2, _⟩ | ⟨_, h2, _⟩
  · exact h
  · exact h
  · exact Or.inl ⟨hd, Or.inl hc⟩
  · exact Or.inl ⟨hd, hc⟩
  · omega
  · omega

theorem sys_bounds_step (s : Sys) (e : Act)
    (h : 0 ≤ s.job.a.Progress ∧ s.job.a.Progress ≤ 1) :
    0 ≤ (s.step e).job.a.Progress ∧ (s.step e).job.a.Progress ≤ 1 := by
  cases e with
  | callRun => exact h
  | runRead =>
      by_cases hn : 0 < s.runs0
      · simpa [Sys.step, hn, runStep_zero_job] using h
      · simpa [Sys.step, hn] using h
  | runWrite =>
      by_cases hn : 0 < s.runs1
      · simpa [Sys.step, hn, runStep] using h
      · simpa [Sys.step, hn] using h
  | callReset => exact h
  | resetStatus =>
      by_cases hn : 0 < s.resets0
      · simpa [Sys.step, hn, resetStep] using h
      · simpa [Sys.step, hn] using h
  | resetProgress =>
      by_cases hn : 0 < s.resets1
      · simp [Sys.step, hn, resetStep]
      · simpa [Sys.step, hn] using h
  | resetFilePath =>
      by_cases hn : 0 < s.resets2
      · simpa [Sys.step, hn, resetStep] using h
      · simpa [Sys.step, hn] using h
  | work k => exact bounds_step s.job (Event.work k) h

theorem sys_bounds_exec (acts : List Act) :
    ∀ (s : Sys), (0 ≤ s.job.a.Progress ∧ s.job.a.Progress ≤ 1) →
      0 ≤ (Sys.exec s acts).job.a.Progress ∧ (Sys.exec s acts).job.a.Progress ≤ 1 := by
  induction acts with
  | nil => intro s h; exact h
  | cons e es ih =>
      intro s h
      rw [sys_exec_cons]
      exact ih _ (sys_bounds_step s e h)

/-- Along a part of an interleaving with serial calls and without a step of
`Reset()`, a Complete job stays Complete. -/
theorem sys_complete_exec (mid : List Act) :
    ∀ (s : Sys), FInv s → serialCalls s mid = true → (∀ e ∈ mid, e.isReset = false) →
      s.job.a.Status = StatusComplete →
      (Sys.exec s mid).job.a.Status = StatusComplete := by
  induction mid with
  | nil => intro s _ _ _ h; exact h
  | cons e es ih =>
      intro s hI hq hno hc
      have hh := serialCalls_head s e es hq
      have hstep := finv_step s e hI hh.1 hh.2.1
      have he : e.isReset = false := hno e (List.mem_cons_self _ _)
      have hes : ∀ x ∈ es, x.isReset = false := fun x hx => hno x (List.mem_cons_of_mem _ hx)
      rw [sys_exec_cons]
      apply ih _ hstep.1 hh.2.2 hes
      rcases hstep.2 he with hj | ⟨ev, hev, _, hj⟩
      · rw [hj]; exact hc
      · rw [hj]
        rcases status_step s.job ev hev with h1 | ⟨h1, _⟩ | h1
        · rw [h1]; exact hc
        · rw [hc] at h1
          exact absurd h1 (by decide)
        · exact h1

/-- Along a part of an interleaving with serial calls and without a step of
`Reset()`, Progress does not decrease from a Running state to a later Running
state. -/
theorem sys_mono_exec (mid : List Act) :
    ∀ (s : Sys), FInv s → serialCalls s mid = true → (∀ e ∈ mid, e.isReset = false) →
      s.job.a.Status = StatusRunning →
      (Sys.exec s mid).job.a.Status = StatusRunning →
      s.job.a.Progress ≤ (Sys.exec s mid).job.a.Progress := by
  induction mid with
  | nil => intro s _ _ _ _ _; exact le_refl _
  | cons e es ih =>
      intro s hI hq hno h1 h2
      have hh := serialCalls_head s e es hq
      have hstep := finv_step s e hI hh.1 hh.2.1
      have he : e.isReset = false := hno e (List.mem_cons_self _ _)
      have hes : ∀ x ∈ es, x.isReset = false := fun x hx => hno x (List.mem_cons_of_mem _ hx)
      rw [sys_exec_cons] at h2 ⊢
      rcases hstep.2 he with hj | ⟨ev, hev, hInv, hj⟩
      · have h1' : (s.step e).job.a.Status = StatusRunning := by rw [hj]; exact h1
        have := ih _ hstep.1 hh.2.2 hes h1' h2
        rw [hj] at this
        exact this
      · rcases status_step s.job ev hev with hs | ⟨hs, _⟩ | hs
        · have h1' : (s.step e).job.a.Status = StatusRunning := by rw [hj, hs]; exact h1
          have hm := (inv_step s.job ev hInv (fun hc => absurd hc hev)).2 hev h1
            (by rw [← hj]; exact h1')
          have := ih _ hstep.1 hh.2.2 hes h1' h2
          rw [hj] at this
          exact le_trans hm this
        · rw [h1] at hs
          exact absurd hs (by decide)
        · have hc : (s.step e).job.a.Status = StatusComplete := by rw [hj]; exact hs
          have := sys_complete_exec es _ hstep.1 hh.2.2 hes hc
          rw [this] at h2
          exact absurd h2 (by decide)

/-! ## Particular interleavings -/

theorem sys_step_work_job (s : Sys) (k : Nat) :
    (s.step (Act.work k)).job = s.job.step (Event.work k) := rfl

theorem ofJob_job (j : Job) : (Sys.ofJob j).job = j := rfl

theorem serialCalls_event_acts (j : Job) (e : Event) :
    serialCalls (Sys.ofJob j) e.acts
      = (if e = Event.reset then decide (j.inFlightCount = 0) else true) := by
  cases e with
  | run => simp [Event.acts, serialCalls, Sys.ofJob, Sys.pending]
  | reset => simp [Event.acts, serialCalls, Sys.ofJob, Sys.pending]
  | work k => simp [Event.acts, serialCalls]

/-- For calls that follow one another, `serialCalls` says that `Reset()` is
never called with a worker in flight. -/
theorem serialCalls_atomicActs (evs : List Event) :
    ∀ (j : Job), serialCalls (Sys.ofJob j) (atomicActs evs) = quietResets j evs := by
  induction evs with
  | nil => intro j; rfl
  | cons e es ih =>
      intro j
      rw [atomicActs, serialCalls_append, exec_event_acts, ih, serialCalls_event_acts,
        quietResets_cons]

theorem serialCalls_soloRun (n : Nat) :
    serialCalls Sys.init (atomicActs (soloRun n)) = true := by
  rw [Sys.init, serialCalls_atomicActs]
  apply quietResets_of_no_reset
  simp [soloRun]

/-- Worker steps change the job as in `Job.exec` and leave the calls alone. -/
theorem sys_exec_work (ks : List Nat) :
    ∀ (s : Sys), Sys.exec s (ks.map Act.work)
      = { s with job := Job.exec s.job (ks.map Event.work) } := by
  induction ks with
  | nil => intro s; rfl
  | cons k rest ih =>
      intro s
      rw [List.map_cons, sys_exec_cons, ih, List.map_cons, exec_cons]
      rfl

/-- Two `Run()` calls have both read Waiting and the first has stored and
started its worker. -/
theorem exec_double_read :
    Sys.exec Sys.init [Act.callRun, Act.callRun, Act.runRead, Act.runRead, Act.runWrite]
      = { job := Job.fresh.step Event.run,
          runs0 := 0, runs1 := 1, resets0 := 0, resets1 := 0, resets2 := 0 } := by
  simp [Sys.exec, Sys.step, Sys.init, Sys.ofJob, runStep, Job.fresh, Archiver.fresh, Job.step,
    Run, StatusWaiting]

/-- After that, `n` stores of the first worker. -/
theorem exec_double_read_work (n : Nat) :
    Sys.exec Sys.init
        ([Act.callRun, Act.callRun, Act.runRead, Act.runRead, Act.runWrite]
          ++ (List.replicate n 0).map Act.work)
      = { job := Job.exec Job.fresh (soloRun n),
          runs0 := 0, runs1 := 1, resets0 := 0, resets1 := 0, resets2 := 0 } := by
  rw [sys_exec_append, exec_double_read, sys_exec_work]
  simp [soloRun, exec_cons]

/-- Steps that store nothing, taken with no worker in flight, leave the job
and the `Reset()` calls that have begun to store as they are. -/
theorem storesNothing_exec (m : List Act) :
    ∀ (s : Sys), (∀ e ∈ m, e.storesNothing = true) → AllDone s.job.workers →
      (Sys.exec s m).job = s.job ∧ (Sys.exec s m).resets1 = s.resets1
        ∧ (Sys.exec s m).resets2 = s.resets2 := by
  induction m with
  | nil => intro s _ _; exact ⟨rfl, rfl, rfl⟩
  | cons e es ih =>
      intro s hq hd
      have he := hq e (List.mem_cons_self _ _)
      have hes : ∀ x ∈ es, x.storesNothing = true := fun x hx => hq x (List.mem_cons_of_mem _ hx)
      have hstep : (s.step e).job = s.job ∧ (s.step e).resets1 = s.resets1
          ∧ (s.step e).resets2 = s.resets2 := by
        cases e with
        | callRun => exact ⟨rfl, rfl, rfl⟩
        | runRead =>
            by_cases hn : 0 < s.runs0
            · simp [Sys.step, hn, runStep_zero_job]
            · simp [Sys.step, hn]
        | callReset => exact ⟨rfl, rfl, rfl⟩
        | work k =>
            refine ⟨?_, rfl, rfl⟩
            exact job_step_work_allDone s.job k hd
        | runWrite => simp [Act.storesNothing] at he
        | resetStatus => simp [Act.storesNothing] at he
        | resetProgress => simp [Act.storesNothing] at he
        | resetFilePath => simp [Act.storesNothing] at he
      have hd2 : AllDone (s.step e).job.workers := by rw [hstep.1]; exact hd
      have h2 := ih (s.step e) hes hd2
      rw [sys_exec_cons, h2.1, h2.2.1, h2.2.2]
      exact hstep

theorem step_resetStatus (s : Sys) (h : 0 < s.resets0) :
    (s.step Act.resetStatus).job.a = resetStep 0 s.job.a
      ∧ (s.step Act.resetStatus).job.workers = s.job.workers
      ∧ (s.step Act.resetStatus).resets1 = s.resets1 + 1 := by
  simp [Sys.step, h]

theorem step_resetProgress (s : Sys) (h : 0 < s.resets1) :
    (s.step Act.resetProgress).job.a = resetStep 1 s.job.a
      ∧ (s.step Act.resetProgress).job.workers = s.job.workers
      ∧ (s.step Act.resetProgress).resets2 = s.resets2 + 1 := by
  simp [Sys.step, h]

theorem step_resetFilePath (s : Sys) (h : 0 < s.resets2) :
    (s.step Act.resetFilePath).job.a = resetStep 2 s.job.a := by
  simp [Sys.step, h]

/-! ## Theorems: `Reset()` among racing stores -/

/-- C3 (counterexample): a Running job whose worker has done 50 stores is
reset; the worker's next store falls between the second and the third store
of `Reset()`, and when `Reset()` returns the job is Waiting with Progress
1/2, not 0.  And on an idle job, the store of a `Run()` call that read
Waiting falls after the first store of `Reset()`: when `Reset()` returns the
job is Running. -/
theorem reset_race_counterexample :
    (Sys.exec Sys.init (atomicActs (soloRun 50))).job.a.Status = StatusRunning
      ∧ (Sys.exec Sys.init
          (atomicActs (soloRun 50)
            ++ [Act.callReset, Act.resetStatus, Act.resetProgress, Act.work 0,
                Act.resetFilePath])).job.a
        = { Status := StatusWaiting, Progress := 1 / 2, FilePath := "" }
      ∧ (Sys.exec Sys.init
          (atomicActs (soloRun 50)
            ++ [Act.callReset, Act.resetStatus, Act.resetProgress, Act.work 0,
                Act.resetFilePath])).job.a
        ≠ { Status := StatusWaiting, Progress := 0, FilePath := "" }
      ∧ (Sys.exec Sys.init
          [Act.callRun, Act.runRead, Act.callReset, Act.resetStatus, Act.runWrite,
            Act.resetProgress, Act.resetFilePath]).job.a
        = { Status := StatusRunning, Progress := 0, FilePath := "" } := by
  have h1 : Sys.exec Sys.init (atomicActs (soloRun 50))
      = Sys.ofJob { a := { Status := StatusRunning, Progress := ((50 - 1 : Nat) : ℚ) / 100,
                           FilePath := "" },
                    workers := [50] } := by
    rw [exec_atomicActs_init, exec_soloRun_progress 50 (by omega)]
  have h2 : (Sys.exec Sys.init
      (atomicActs (soloRun 50)
        ++ [Act.callReset, Act.resetStatus, Act.resetProgress, Act.work 0,
            Act.resetFilePath])).job.a
      = { Status := StatusWaiting, Progress := 1 / 2, FilePath := "" } := by
    rw [sys_exec_append, h1]
    simp [Sys.exec, Sys.step, Sys.ofJob, resetStep, Job.step, doArchiveStep, workerLen]
    norm_num
  refine ⟨by rw [h1]; rfl, h2, ?_, ?_⟩
  · rw [h2]
    intro hc
    have := congrArg Archiver.Progress hc
    norm_num at this
  · simp [Sys.exec, Sys.step, Sys.init, Sys.ofJob, runStep, resetStep, Job.fresh,
      Archiver.fresh, StatusWaiting]

/-- C3 (amended): for every archiver state, a `Reset()` call between whose
stores only steps that store nothing are taken, with no worker in flight,
leaves exactly Waiting, Progress 0 and an empty FilePath when it returns, and
`ArchiveFile()` on that state returns the empty string; so does a `Reset()`
call whose three stores follow one another, whatever the workers.  In every
interleaving FilePath is empty just after the last store of `Reset()` and
`ArchiveFile()` on that state returns the empty string. -/
theorem reset_returns_cleared (s : Sys) (m1 m2 : List Act)
    (hd : AllDone s.job.workers) (h0 : 0 < s.resets0)
    (h1 : ∀ e ∈ m1, e.storesNothing = true) (h2 : ∀ e ∈ m2, e.storesNothing = true) :
    (Sys.exec s ([Act.resetStatus] ++ m1 ++ [Act.resetProgress] ++ m2
        ++ [Act.resetFilePath])).job.a
        = { Status := StatusWaiting, Progress := 0, FilePath := "" }
      ∧ (ArchiveFile (Sys.exec s ([Act.resetStatus] ++ m1 ++ [Act.resetProgress] ++ m2
          ++ [Act.resetFilePath])).job.a).1 = ""
      ∧ (∀ t : Sys, 0 < t.resets0 →
          (Sys.exec t [Act.resetStatus, Act.resetProgress, Act.resetFilePath]).job.a
            = { Status := StatusWaiting, Progress := 0, FilePath := "" })
      ∧ (∀ t : Sys, 0 < t.resets2 →
          (t.step Act.resetFilePath).job.a.FilePath = ""
            ∧ (ArchiveFile (t.step Act.resetFilePath).job.a).1 = "")
      ∧ (∀ a : Archiver, resetStep 2 (resetStep 1 (resetStep 0 a)) = Reset a) := by
  have hfinal : (Sys.exec s ([Act.resetStatus] ++ m1 ++ [Act.resetProgress] ++ m2
      ++ [Act.resetFilePath])).job.a
      = { Status := StatusWaiting, Progress := 0, FilePath := "" } := by
    have hE : Sys.exec s ([Act.resetStatus] ++ m1 ++ [Act.resetProgress] ++ m2
        ++ [Act.resetFilePath])
        = (Sys.exec ((Sys.exec (s.step Act.resetStatus) m1).step Act.resetProgress) m2).step
            Act.resetFilePath := by
      simp [Sys.exec, List.foldl_append]
    have A := step_resetStatus s h0
    have q1 := storesNothing_exec m1 (s.step Act.resetStatus) h1 (by rw [A.2.1]; exact hd)
    have B := step_resetProgress (Sys.exec (s.step Act.resetStatus) m1)
      (by rw [q1.2.1, A.2.2]; omega)
    have q2 := storesNothing_exec m2
      ((Sys.exec (s.step Act.resetStatus) m1).step Act.resetProgress) h2
      (by rw [B.2.1, q1.1, A.2.1]; exact hd)
    have C := step_resetFilePath
      (Sys.exec ((Sys.exec (s.step Act.resetStatus) m1).step Act.resetProgress) m2)
      (by rw [q2.2.2, B.2.2]; omega)
    rw [hE, C, q2.1, B.1, q1.1, A.1]
    simp [resetStep]
  refine ⟨hfinal, ?_, ?_, ?_, resetStep_thrice⟩
  · rw [hfinal]
    simp [ArchiveFile, StatusWaiting, StatusComplete]
  · intro t ht
    simp [Sys.exec, Sys.step, ht, resetStep]
  · intro t ht
    have hf : (t.step Act.resetFilePath).job.a.FilePath = "" := by
      simp [Sys.step, ht, resetStep]
    refine ⟨hf, ?_⟩
    unfold ArchiveFile
    split
    · rfl
    · exact hf

/-- Witness of `reset_returns_cleared`: a Complete job whose worker has
returned, one `Reset()` call entered; between its stores the returned worker
is scheduled, a `Run()` call is entered and evaluates its guard. -/
theorem reset_returns_cleared_witness :
    (Sys.exec
        { job := { a := { Status := StatusComplete, Progress := 1, FilePath := archivePath },
                   workers := [103] },
          runs0 := 0, runs1 := 0, resets0 := 1, resets1 := 0, resets2 := 0 }
        ([Act.resetStatus] ++ [Act.work 0, Act.callRun] ++ [Act.resetProgress]
          ++ [Act.callReset] ++ [Act.resetFilePath])).job.a
      = { Status := StatusWaiting, Progress := 0, FilePath := "" } :=
  (reset_returns_cleared
    { job := { a := { Status := StatusComplete, Progress := 1, FilePath := archivePath },
               workers := [103] },
      runs0 := 0, runs1 := 0, resets0 := 1, resets1 := 0, resets2 := 0 }
    [Act.work 0, Act.callRun] [Act.callReset]
    (by intro x hx; simp at hx; subst hx; decide)
    (by decide) (by decide) (by decide)).1

/-! ## Theorems: interleavings of `Run`, `Reset` and worker stores -/

theorem job_inFlightCount_allDone (j : Job) (hd : AllDone j.workers) :
    j.inFlightCount = 0 := by
  obtain ⟨a, ws⟩ := j
  exact inFlightCount_allDone a ws hd

theorem run_guard_of_noop (j : Job) (h : (Run j.a).2 = []) :
    j.a.Status ≠ StatusWaiting ∧ (runStep 0 j).1 = 2 := by
  have hne : j.a.Status ≠ StatusWaiting := by
    intro hw
    simp [Run, hw] at h
  exact ⟨hne, by simp [runStep, hne]⟩

/-- C8 (counterexample): two workers are in flight after `Run()`, `Reset()`,
`Run()` called one after the other; and also, with no `Reset()` at all, after
two `Run()` calls that both read Status before either stores it. -/
theorem two_workers_counterexample :
    (Sys.exec Sys.init (atomicActs [Event.run, Event.reset, Event.run])).job.inFlightCount = 2
      ∧ (Sys.exec Sys.init
          [Act.callRun, Act.callRun, Act.runRead, Act.runRead, Act.runWrite,
            Act.runWrite]).job.inFlightCount = 2
      ∧ (∀ e ∈ [Act.callRun, Act.callRun, Act.runRead, Act.runRead, Act.runWrite,
            Act.runWrite], e.isReset = false) := by
  refine ⟨?_, by decide, by decide⟩
  rw [exec_atomicActs_init]
  exact whole_calls_run_reset_run.2.2.1

/-- C8 (amended): in every state reachable from a fresh job by an interleaving
of the steps of `Run()` calls, the stores of `Reset()` calls and the stores
of the workers, in which `Run()` and `Reset()` calls do not overlap one
another and `Reset()` is not called while a worker is in flight, at most one
worker is in flight; and while a worker is in flight no `Run()` call is past
its guard and a `Run()` call that evaluates its guard returns there, so no
second worker is scheduled. -/
theorem one_worker_when_calls_serial (acts : List Act)
    (h : serialCalls Sys.init acts = true) :
    (Sys.exec Sys.init acts).job.inFlightCount ≤ 1
      ∧ (0 < (Sys.exec Sys.init acts).job.inFlightCount →
          (Sys.exec Sys.init acts).runs1 = 0
            ∧ (Sys.exec Sys.init acts).job.a.Status ≠ StatusWaiting
            ∧ (runStep 0 (Sys.exec Sys.init acts).job).1 = 2
            ∧ (Run (Sys.exec Sys.init acts).job.a).2 = []) := by
  have hI := finv_reachable acts h
  have hc := finv_inFlight _ hI
  refine ⟨hc.1, fun hpos => ?_⟩
  have hr1 := hc.2 hpos
  have hInv : Inv (Sys.exec Sys.init acts).job := by
    rcases hI with ⟨_, hi⟩ | ⟨_, _, hi⟩ | ⟨_, h2, _⟩ | ⟨_, _, hd, _⟩ | ⟨_, _, hd, _⟩
      | ⟨_, _, hd, _⟩
    · exact hi
    · exact hi
    · omega
    · have := job_inFlightCount_allDone _ hd
      omega
    · have := job_inFlightCount_allDone _ hd
      omega
    · have := job_inFlightCount_allDone _ hd
      omega
  have hnoop := run_noop_of_inv_inFlight _ hInv hpos
  have hg := run_guard_of_noop _ hnoop
  exact ⟨hr1, hg.1, hg.2, hnoop⟩

/-- Witness of `one_worker_when_calls_serial`: an idle job is reset and
started, its worker stores once, and a second `Run()` call is entered and
evaluates its guard while that worker is in flight. -/
theorem one_worker_when_calls_serial_witness :
    (Sys.exec Sys.init
        (atomicActs [Event.reset, Event.run]
          ++ [Act.work 0, Act.callRun, Act.runRead, Act.runWrite])).job.inFlightCount ≤ 1
      ∧ (Sys.exec Sys.init
          (atomicActs [Event.reset, Event.run]
            ++ [Act.work 0, Act.callRun, Act.runRead, Act.runWrite])).runs1 = 0 :=
  ⟨(one_worker_when_calls_serial
      (atomicActs [Event.reset, Event.run]
        ++ [Act.work 0, Act.callRun, Act.runRead, Act.runWrite]) (by decide)).1,
   ((one_worker_when_calls_serial
      (atomicActs [Event.reset, Event.run]
        ++ [Act.work 0, Act.callRun, Act.runRead, Act.runWrite]) (by decide)).2
      (by decide)).1⟩

/-- C9 (counterexample): Progress drops between two Running states with no
`Reset()` between them, first when the job was reset during a run and started
again (the old worker stores 1/50, then the new one stores 0), and also, with
no `Reset()` at all, after two `Run()` calls that both read Status before
either stores it (the first worker stores 1/50, then the second stores 0). -/
theorem progress_not_monotone_counterexample :
    ((Sys.exec Sys.init
          (atomicActs [Event.run, Event.work 0, Event.work 0, Event.reset, Event.run,
            Event.work 0])).job.a
        = { Status := StatusRunning, Progress := 1 / 50, FilePath := "" }
      ∧ (Sys.exec
          (Sys.exec Sys.init
            (atomicActs [Event.run, Event.work 0, Event.work 0, Event.reset, Event.run,
              Event.work 0]))
          [Act.work 1]).job.a
        = { Status := StatusRunning, Progress := 0, FilePath := "" })
      ∧ ((Sys.exec Sys.init
          [Act.callRun, Act.callRun, Act.runRead, Act.runRead, Act.runWrite, Act.runWrite,
            Act.work 0, Act.work 0, Act.work 0]).job.a
        = { Status := StatusRunning, Progress := 1 / 50, FilePath := "" }
      ∧ (Sys.exec
          (Sys.exec Sys.init
            [Act.callRun, Act.callRun, Act.runRead, Act.runRead, Act.runWrite, Act.runWrite,
              Act.work 0, Act.work 0, Act.work 0])
          [Act.work 1]).job.a
        = { Status := StatusRunning, Progress := 0, FilePath := "" })
      ∧ ¬ ((1 / 50 : ℚ) ≤ 0) := by
  have hA := whole_calls_progress_drop
  have h1 : Sys.exec Sys.init
      (atomicActs [Event.run, Event.work 0, Event.work 0, Event.reset, Event.run,
        Event.work 0])
      = Sys.ofJob (Job.exec Job.fresh
          [Event.run, Event.work 0, Event.work 0, Event.reset, Event.run, Event.work 0]) :=
    exec_atomicActs_init _
  have h2 : Sys.exec
      (Sys.ofJob (Job.exec Job.fresh
        [Event.run, Event.work 0, Event.work 0, Event.reset, Event.run, Event.work 0]))
      [Act.work 1]
      = Sys.ofJob (Job.exec (Job.exec Job.fresh
          [Event.run, Event.work 0, Event.work 0, Event.reset, Event.run, Event.work 0])
          [Event.work 1]) := rfl
  have h3 : Sys.exec Sys.init
      [Act.callRun, Act.callRun, Act.runRead, Act.runRead, Act.runWrite, Act.runWrite,
        Act.work 0, Act.work 0, Act.work 0]
      = Sys.ofJob { a := { Status := StatusRunning, Progress := 1 / 50, FilePath := "" },
                    workers := [3, 0] } := by
    simp [Sys.exec, Sys.step, Sys.init, Sys.ofJob, runStep, Job.fresh, Archiver.fresh, Job.step,
      doArchiveStep, workerLen, StatusWaiting]
    norm_num
  have h4 : Sys.exec
      (Sys.ofJob { a := { Status := StatusRunning, Progress := 1 / 50, FilePath := "" },
                   workers := [3, 0] })
      [Act.work 1]
      = Sys.ofJob { a := { Status := StatusRunning, Progress := 0, FilePath := "" },
                    workers := [3, 1] } := by
    simp [Sys.exec, Sys.step, Sys.ofJob, Job.step, doArchiveStep, workerLen]
  refine ⟨⟨?_, ?_⟩, ⟨?_, ?_⟩, by norm_num⟩
  · rw [h1]; exact hA.1
  · rw [h1, h2]; exact hA.2.1
  · rw [h3]; rfl
  · rw [h3, h4]; rfl

/-- C9 (amended): every Progress observed in any interleaving from a fresh job
lies in [0, 1]; and in an interleaving in which `Run()` and `Reset()` calls
do not overlap one another and `Reset()` is not called while a worker is in
flight, for two states `s1` then `s2` that both have Status Running with no
step of `Reset()` between them, Progress(s1) ≤ Progress(s2). -/
theorem progress_bounded_and_monotone_serial (pre mid : List Act) :
    (0 ≤ (Sys.exec Sys.init pre).job.a.Progress ∧ (Sys.exec Sys.init pre).job.a.Progress ≤ 1)
      ∧ (serialCalls Sys.init (pre ++ mid) = true → (∀ e ∈ mid, e.isReset = false) →
          (Sys.exec Sys.init pre).job.a.Status = StatusRunning →
          (Sys.exec (Sys.exec Sys.init pre) mid).job.a.Status = StatusRunning →
          (Sys.exec Sys.init pre).job.a.Progress
            ≤ (Sys.exec (Sys.exec Sys.init pre) mid).job.a.Progress) := by
  constructor
  · apply sys_bounds_exec
    simp [Sys.init, Sys.ofJob, Job.fresh, Archiver.fresh]
  · intro hq hno h1 h2
    rw [serialCalls_append, Bool.and_eq_true] at hq
    exact sys_mono_exec mid _ (finv_reachable pre hq.1) hq.2 hno h1 h2

/-- Witness of `progress_bounded_and_monotone_serial`: `s1` is the state after
`Run()` and two worker stores; before `s2` the worker stores again, a second
`Run()` call is entered and returns at its guard, and the worker stores once
more. -/
theorem progress_bounded_and_monotone_serial_witness :
    (Sys.exec Sys.init (atomicActs (soloRun 2))).job.a.Progress
      ≤ (Sys.exec (Sys.exec Sys.init (atomicActs (soloRun 2)))
          [Act.work 0, Act.callRun, Act.runRead, Act.work 0]).job.a.Progress :=
  (progress_bounded_and_monotone_serial (atomicActs (soloRun 2))
      [Act.work 0, Act.callRun, Act.runRead, Act.work 0]).2
    (by decide) (by decide) (by decide) (by decide)

/-- C10 (counterexample): four observable states in which FilePath and Status
disagree.  With serial calls, after `Run()` and 102 worker stores the job is
Complete with an empty FilePath.  If `Reset()` is called at that point, the
worker's last store leaves a Waiting job with a non-empty FilePath.  With no
`Reset()` at all, after two `Run()` calls that both read Waiting, the first
worker completes and the second call then stores Running: Running with a
non-empty FilePath.  And with serial calls on a completed job, after the
first store of `Reset()` the job is Waiting with a non-empty FilePath. -/
theorem filePath_status_counterexample :
    ((Sys.exec Sys.init (atomicActs (soloRun 102))).job.a
        = { Status := StatusComplete, Progress := 1, FilePath := "" }
      ∧ serialCalls Sys.init (atomicActs (soloRun 102)) = true)
      ∧ (Sys.exec Sys.init (atomicActs (soloRun 102 ++ [Event.reset, Event.work 0]))).job.a
        = { Status := StatusWaiting, Progress := 0, FilePath := "/path/to/archive.zip" }
      ∧ (Sys.exec Sys.init
          ([Act.callRun, Act.callRun, Act.runRead, Act.runRead, Act.runWrite]
            ++ (List.replicate 103 0).map Act.work ++ [Act.runWrite])).job.a
        = { Status := StatusRunning, Progress := 1, FilePath := "/path/to/archive.zip" }
      ∧ ((Sys.exec Sys.init
            (atomicActs (soloRun 103) ++ [Act.callReset, Act.resetStatus])).job.a
          = { Status := StatusWaiting, Progress := 1, FilePath := "/path/to/archive.zip" }
        ∧ serialCalls Sys.init
            (atomicActs (soloRun 103) ++ [Act.callReset, Act.resetStatus]) = true) := by
  refine ⟨⟨?_, serialCalls_soloRun 102⟩, ?_, ?_, ?_, ?_⟩
  · rw [exec_atomicActs_init, exec_soloRun_102]
    rfl
  · rw [exec_atomicActs_init, exec_append, exec_soloRun_102]
    simp [Sys.ofJob, Job.exec, Job.step, Reset, doArchiveStep, workerLen, archivePath]
  · rw [sys_exec_append, exec_double_read_work 103, exec_soloRun_103]
    simp [Sys.exec, Sys.step, runStep, archivePath]
  · rw [sys_exec_append, exec_atomicActs_init, exec_soloRun_103]
    simp [Sys.exec, Sys.step, Sys.ofJob, resetStep, archivePath]
  · rw [serialCalls_append, serialCalls_soloRun 103, exec_atomicActs_init, exec_soloRun_103]
    decide

/-- C10 (amended): in every state reachable from a fresh job by an
interleaving in which `Run()` and `Reset()` calls do not overlap one another
and `Reset()` is not called while a worker is in flight, and in which no
`Reset()` call is between its first store and its return, FilePath is
non-empty if and only if Status is Complete and no worker is in flight; so a
non-empty FilePath implies Status Complete, and when no worker is in flight
FilePath is non-empty exactly when Status is Complete. -/
theorem filePath_iff_complete_serial (acts : List Act)
    (h : serialCalls Sys.init acts = true)
    (hr : (Sys.exec Sys.init acts).resets1 + (Sys.exec Sys.init acts).resets2 = 0) :
    ((Sys.exec Sys.init acts).job.a.FilePath ≠ ""
        ↔ ((Sys.exec Sys.init acts).job.a.Status = StatusComplete
            ∧ (Sys.exec Sys.init acts).job.inFlightCount = 0))
      ∧ ((Sys.exec Sys.init acts).job.a.FilePath ≠ "" →
          (Sys.exec Sys.init acts).job.a.Status = StatusComplete)
      ∧ ((Sys.exec Sys.init acts).job.inFlightCount = 0 →
          ((Sys.exec Sys.init acts).job.a.FilePath ≠ ""
            ↔ (Sys.exec Sys.init acts).job.a.Status = StatusComplete)) := by
  have hiff := filePath_of_inv _ (finv_inv _ (finv_reachable acts h) hr)
  refine ⟨hiff, fun hne => (hiff.mp hne).1, fun h0 => ?_⟩
  constructor
  · exact fun hne => (hiff.mp hne).1
  · exact fun hc => hiff.mpr ⟨hc, h0⟩

/-- Witness of `filePath_iff_complete_serial` after a completed run followed by
a `Run()` call that returns at its guard: the path is there, the status is
Complete and no worker is in flight. -/
theorem filePath_iff_complete_serial_witness :
    (Sys.exec Sys.init
        (atomicActs (soloRun 103) ++ [Act.callRun, Act.runRead])).job.a.FilePath ≠ ""
      ∧ (Sys.exec Sys.init
          (atomicActs (soloRun 103) ++ [Act.callRun, Act.runRead])).job.a.Status
          = StatusComplete
      ∧ (Sys.exec Sys.init
          (atomicActs (soloRun 103) ++ [Act.callRun, Act.runRead])).job.inFlightCount = 0 :=
  have hstate : Sys.exec Sys.init (atomicActs (soloRun 103) ++ [Act.callRun, Act.runRead])
      = Sys.ofJob { a := { Status := StatusComplete, Progress := 1, FilePath := archivePath },
                    workers := [103] } := by
    rw [sys_exec_append, exec_atomicActs_init, exec_soloRun_103]
    simp [Sys.exec, Sys.step, Sys.ofJob, runStep, StatusComplete, StatusWaiting]
  have hq : serialCalls Sys.init (atomicActs (soloRun 103) ++ [Act.callRun, Act.runRead])
      = true := by
    rw [serialCalls_append, serialCalls_soloRun 103, exec_atomicActs_init, exec_soloRun_103]
    decide
  have hne : (Sys.exec Sys.init
      (atomicActs (soloRun 103) ++ [Act.callRun, Act.runRead])).job.a.FilePath ≠ "" := by
    rw [hstate]
    decide
  ⟨hne,
    ((filePath_iff_complete_serial (atomicActs (soloRun 103) ++ [Act.callRun, Act.runRead]) hq
        (by rw [hstate]; rfl)).1.mp hne).1,
    ((filePath_iff_complete_serial (atomicActs (soloRun 103) ++ [Act.callRun, Act.runRead]) hq
        (by rw [hstate]; rfl)).1.mp hne).2⟩

/-- C11 (counterexample): two steps that are not steps of `Reset()` and change
Status out of order.  A worker that has done its 101 progress stores when the
job is reset then stores Status: Waiting to Complete.  And with no `Reset()`
at all, after two `Run()` calls that both read Waiting, the first worker
stores Complete and the second call then stores Running: Complete to
Running. -/
theorem status_order_counterexample :
    ((Sys.exec Sys.init (atomicActs (soloRun 101 ++ [Event.reset]))).job.a.Status
        = StatusWaiting
      ∧ ((Sys.exec Sys.init (atomicActs (soloRun 101 ++ [Event.reset]))).step
          (Act.work 0)).job.a.Status = StatusComplete
      ∧ (Act.work 0).isReset = false)
      ∧ ((Sys.exec Sys.init
          ([Act.callRun, Act.callRun, Act.runRead, Act.runRead, Act.runWrite]
            ++ (List.replicate 102 0).map Act.work)).job.a.Status = StatusComplete
      ∧ ((Sys.exec Sys.init
          ([Act.callRun, Act.callRun, Act.runRead, Act.runRead, Act.runWrite]
            ++ (List.replicate 102 0).map Act.work)).step Act.runWrite).job.a.Status
          = StatusRunning
      ∧ Act.runWrite.isReset = false) := by
  have hA := whole_calls_waiting_to_complete
  refine ⟨⟨?_, ?_, rfl⟩, ?_, ?_, rfl⟩
  · rw [exec_atomicActs_init]
    exact hA.1
  · rw [exec_atomicActs_init, sys_step_work_job, ofJob_job]
    exact hA.2.1
  · rw [exec_double_read_work 102, exec_soloRun_102]
  · rw [exec_double_read_work 102, exec_soloRun_102]
    simp [Sys.step, runStep]

/-- C11 (amended): in an interleaving from a fresh job in which `Run()` and
`Reset()` calls do not overlap one another and `Reset()` is not called while
a worker is in flight, every step other than a step of `Reset()` that changes
Status changes it either from Waiting to Running or from Running to Complete;
so no such step takes the job from Waiting directly to Complete or from
Complete back to Running. -/
theorem status_changes_forward_serial (acts : List Act) (e : Act)
    (hq : serialCalls Sys.init acts = true) (he : e.isReset = false)
    (hch : ((Sys.exec Sys.init acts).step e).job.a.Status
      ≠ (Sys.exec Sys.init acts).job.a.Status) :
    (((Sys.exec Sys.init acts).job.a.Status = StatusWaiting
          ∧ ((Sys.exec Sys.init acts).step e).job.a.Status = StatusRunning)
        ∨ ((Sys.exec Sys.init acts).job.a.Status = StatusRunning
          ∧ ((Sys.exec Sys.init acts).step e).job.a.Status = StatusComplete))
      ∧ ¬ ((Sys.exec Sys.init acts).job.a.Status = StatusWaiting
          ∧ ((Sys.exec Sys.init acts).step e).job.a.Status = StatusComplete)
      ∧ ¬ ((Sys.exec Sys.init acts).job.a.Status = StatusComplete
          ∧ ((Sys.exec Sys.init acts).step e).job.a.Status = StatusRunning) := by
  have hI := finv_reachable acts hq
  have hmain : ((Sys.exec Sys.init acts).job.a.Status = StatusWaiting
        ∧ ((Sys.exec Sys.init acts).step e).job.a.Status = StatusRunning)
      ∨ ((Sys.exec Sys.init acts).job.a.Status = StatusRunning
        ∧ ((Sys.exec Sys.init acts).step e).job.a.Status = StatusComplete) := by
    by_cases hcr : e = Act.callRun
    · subst hcr
      exact absurd rfl hch
    · have hstep := finv_step _ e hI (fun hc => absurd hc hcr)
        (fun hc => by rw [hc] at he; simp [Act.isReset] at he)
      rcases hstep.2 he with hj | ⟨ev, hev, hInv, hj⟩
      · rw [hj] at hch
        exact absurd rfl hch
      · rw [hj] at hch ⊢
        rcases status_step _ ev hev with hs | hs | hs
        · exact absurd hs hch
        · exact Or.inl hs
        · rcases inv_status_cases _ hInv with ⟨hw, hd⟩ | hr | hc
          · exact absurd hs (waiting_quiet_not_complete _ ev hev hw hd)
          · exact Or.inr ⟨hr, hs⟩
          · rw [← hc] at hs
            exact absurd hs hch
  refine ⟨hmain, ?_, ?_⟩
  · rintro ⟨hw, hc⟩
    rcases hmain with ⟨_, h2⟩ | ⟨h1, _⟩
    · rw [hc] at h2
      exact absurd h2 (by decide)
    · rw [hw] at h1
      exact absurd h1 (by decide)
  · rintro ⟨hc, hr⟩
    rcases hmain with ⟨h1, _⟩ | ⟨h1, _⟩
    · rw [hc] at h1
      exact absurd h1 (by decide)
    · rw [hc] at h1
      exact absurd h1 (by decide)

/-- Witness of `status_changes_forward_serial`: after `Run()` and the 101
progress stores of its worker, the worker's next store takes the job from
Running to Complete. -/
theorem status_changes_forward_serial_witness :
    ((Sys.exec Sys.init (atomicActs (soloRun 101))).job.a.Status = StatusWaiting
        ∧ ((Sys.exec Sys.init (atomicActs (soloRun 101))).step (Act.work 0)).job.a.Status
            = StatusRunning)
      ∨ ((Sys.exec Sys.init (atomicActs (soloRun 101))).job.a.Status = StatusRunning
        ∧ ((Sys.exec Sys.init (atomicActs (soloRun 101))).step (Act.work 0)).job.a.Status
            = StatusComplete) :=
  (status_changes_forward_serial (atomicActs (soloRun 101)) (Act.work 0)
    (serialCalls_soloRun 101) rfl
    (by
      rw [exec_atomicActs_init, exec_soloRun_progress 101 (Nat.le_refl _)]
      simp [Sys.step, Sys.ofJob, Job.step, doArchiveStep, workerLen, StatusComplete,
        StatusRunning])).1

end Hypermedia
